import Mathlib

/-!
# Verification of the hclconfig dependency-resolution engine

A shallow embedding, in Lean 4, of the core of the `hclconfig` Go library:
the dependency-graph builder (`buildDependencyGraph`, `addDependency`,
`extractNestedBlockDeps`), the cycle-aware topological sorter (`topoSort`,
`findCycle`), the ordered resolver (`Load`) and the environment-variable
functions (`envFunction`, `envOrFunction`).

Modelling conventions:
* Go `map[string]bool` sets are embedded as deduplicated `List String`
  (insertion order); Go `map` lookup tables keyed by strings are embedded
  either as association lists (when their entry order matters for the
  algorithm's iteration) or as functions `String → Option _` (when they are
  only read pointwise).
* The HCL expression engine is an external collaborator of the library;
  expressions are embedded as a small language of literals, traversals and
  string interpolations that provides exactly the two operations the core
  consumes: `Variables()` (the list of traversals, `exprVars`) and
  evaluation against an environment (`evalExpr`).
* Machine integers (`int` in-degrees of `topoSort`) are embedded as `Int`:
  the decrements in Kahn's algorithm can drive a count below zero, which is
  observable behaviour (a node is enqueued only when its count is exactly 0).
* Go's unbounded loops are embedded with an explicit fuel argument chosen at
  the call site exactly as large as the loop can ever iterate; the theorems
  about `topoSort` prove that the fuel is never the binding constraint.
-/

namespace HclConfig

/-- A resolved configuration value: the `cty.Value` fragment the library
manipulates (strings, numbers, booleans and objects).  Objects built by the
library from Go maps are canonical (attribute order is not observable), so
object construction in the resolver goes through `objOfMap`, which sorts
fields by name. -/
inductive Value where
  | str (s : String)
  | num (n : Int)
  | bool (b : Bool)
  | obj (fields : List (String × Value))

mutual

/-- Decidable equality for `Value` (the nested `obj` constructor defeats the
automatic deriving). -/
def valueDecEq : (a b : Value) → Decidable (a = b)
  | .str a, .str b =>
      if h : a = b then isTrue (by rw [h]) else isFalse (fun he => h (by injection he))
  | .num a, .num b =>
      if h : a = b then isTrue (by rw [h]) else isFalse (fun he => h (by injection he))
  | .bool a, .bool b =>
      if h : a = b then isTrue (by rw [h]) else isFalse (fun he => h (by injection he))
  | .obj a, .obj b =>
      match valueFieldsDecEq a b with
      | isTrue h => isTrue (by rw [h])
      | isFalse h => isFalse (fun he => h (by injection he))
  | .str _, .num _ => isFalse (fun h => Value.noConfusion h)
  | .str _, .bool _ => isFalse (fun h => Value.noConfusion h)
  | .str _, .obj _ => isFalse (fun h => Value.noConfusion h)
  | .num _, .str _ => isFalse (fun h => Value.noConfusion h)
  | .num _, .bool _ => isFalse (fun h => Value.noConfusion h)
  | .num _, .obj _ => isFalse (fun h => Value.noConfusion h)
  | .bool _, .str _ => isFalse (fun h => Value.noConfusion h)
  | .bool _, .num _ => isFalse (fun h => Value.noConfusion h)
  | .bool _, .obj _ => isFalse (fun h => Value.noConfusion h)
  | .obj _, .str _ => isFalse (fun h => Value.noConfusion h)
  | .obj _, .num _ => isFalse (fun h => Value.noConfusion h)
  | .obj _, .bool _ => isFalse (fun h => Value.noConfusion h)

/-- Decidable equality for object field lists. -/
def valueFieldsDecEq : (a b : List (String × Value)) → Decidable (a = b)
  | [], [] => isTrue rfl
  | [], _ :: _ => isFalse (fun h => List.noConfusion h)
  | _ :: _, [] => isFalse (fun h => List.noConfusion h)
  | (k1, v1) :: t1, (k2, v2) :: t2 =>
      if hk : k1 = k2 then
        match valueDecEq v1 v2 with
        | isTrue hv =>
            match valueFieldsDecEq t1 t2 with
            | isTrue ht => isTrue (by rw [hk, hv, ht])
            | isFalse ht => isFalse (by intro h; injection h with h1 h2; exact ht h2)
        | isFalse hv =>
            isFalse (by intro h; injection h with h1 h2; exact hv (congrArg Prod.snd h1))
      else
        isFalse (by intro h; injection h with h1 h2; exact hk (congrArg Prod.fst h1))

end

instance : DecidableEq Value := valueDecEq

mutual

/-- Render a value for debugging output. -/
def Value.show : Value → String
  | .str s => "str " ++ reprStr s
  | .num n => "num " ++ reprStr n
  | .bool b => "bool " ++ reprStr b
  | .obj fs => "obj [" ++ valueFieldsShow fs ++ "]"

/-- Render an object field list for debugging output. -/
def valueFieldsShow : List (String × Value) → String
  | [] => ""
  | (k, v) :: rest => "(" ++ reprStr k ++ ", " ++ Value.show v ++ ") " ++ valueFieldsShow rest

end

instance : Repr Value := ⟨fun v _ => Value.show v⟩

/-- One step of an HCL traversal after the root: a plain attribute access
(`hcl.TraverseAttr`) or an index (`hcl.TraverseIndex`). -/
inductive Seg where
  | attr (name : String)
  | index (i : Int)
deriving DecidableEq, Repr

/-- An `hcl.Traversal`: a root name followed by further steps.  A real HCL
traversal is never empty, so the root is a separate mandatory field and the
`len(traversal) == 0` guard of `addDependency` has no embedded counterpart. -/
structure Traversal where
  root : String
  segs : List Seg
deriving DecidableEq, Repr

/-- A piece of a template expression: literal text or an interpolated
traversal. -/
inductive Part where
  | s (text : String)
  | r (t : Traversal)
deriving DecidableEq, Repr

/-- An expression, as far as the core is concerned: a literal, a bare
traversal, or a string template interpolating traversals. -/
inductive Expr where
  | lit (v : Value)
  | tref (t : Traversal)
  | interp (parts : List Part)
deriving DecidableEq, Repr

/-- `attr.Expr.Variables()`: the traversals an expression references. -/
def exprVars : Expr → List Traversal
  | .lit _ => []
  | .tref t => [t]
  | .interp ps => ps.filterMap (fun p => match p with | .s _ => none | .r t => some t)

/-- `blockInfo` from resolve.go: metadata about a block or top-level
attribute for dependency analysis. -/
structure BlockInfo where
  typeName : String
  label : String := ""
  index : Nat := 0
  isAttr : Bool := false
deriving DecidableEq, Repr

/-- `blockInfo.key()`: `typeName.label` when the label is nonempty, else
`typeName`. -/
def BlockInfo.key (b : BlockInfo) : String :=
  if b.label != "" then b.typeName ++ "." ++ b.label else b.typeName

/-- The dependency graph `map[string]map[string]bool`, embedded as an
association list from node key to its (deduplicated) list of dependency
keys.  Entry order and list order reflect insertion order; the Go map
iteration order is not observable through the lookups the algorithms use. -/
abbrev Deps := List (String × List String)

/-- Reading `deps[k]`: a missing entry is the empty set. -/
def lookupDeps (deps : Deps) (k : String) : List String :=
  match deps.find? (fun e => e.1 == k) with
  | some e => e.2
  | none => []

/-- `if deps[key] == nil { deps[key] = make(map[string]bool) }`. -/
def ensureEntry (deps : Deps) (k : String) : Deps :=
  if deps.any (fun e => e.1 == k) then deps else deps ++ [(k, [])]

/-- `deps[fromKey][toKey] = true` (creating the inner set if needed):
set-insert, a no-op when the edge is already present. -/
def insertEdge (deps : Deps) (fromKey toKey : String) : Deps :=
  if deps.any (fun e => e.1 == fromKey) then
    deps.map (fun e =>
      if e.1 == fromKey then
        (e.1, if e.2.contains toKey then e.2 else e.2 ++ [toKey])
      else e)
  else
    deps ++ [(fromKey, [toKey])]

/-- The target-key resolution of `addDependency` (resolve.go lines
100–113): the root name, refined to `root.label` when the second traversal
step is a plain attribute access naming the label of the first catalogued
block with that root type. -/
def resolveTarget (trav : Traversal) (blockInfos : List BlockInfo) : String :=
  match trav.segs with
  | .attr name :: _ =>
      match blockInfos.find? (fun bi => bi.typeName == trav.root && bi.label == name) with
      | some bi => bi.key
      | none => trav.root
  | _ => trav.root

/-- `addDependency` from resolve.go: resolve a traversal to a target key
(discarding unknown roots, refining `root` to `root.label` when the second
traversal step is a plain attribute naming the label of a block catalogued
with that root type) and record the edge unless it is a self-reference. -/
def addDependency (deps : Deps) (fromKey : String) (trav : Traversal)
    (knownTypes : List String) (blockInfos : List BlockInfo) : Deps :=
  if !knownTypes.contains trav.root then deps
  else
    let targetKey := resolveTarget trav blockInfos
    if targetKey != fromKey then insertEdge deps fromKey targetKey else deps

/-- A source range (file and line; columns are not needed by the claims). -/
structure Rng where
  filename : String
  line : Nat
deriving DecidableEq, Repr

/-- A named attribute inside a body, with the source range its diagnostics
carry. -/
structure BAttr where
  name : String
  expr : Expr
  range : Rng
deriving DecidableEq, Repr

/-- An HCL body: named attributes plus nested blocks (each nested block is a
type name and a body).  `JustAttributes` returns `attrs`; nested blocks are
what `extractNestedBlockDeps` recurses into. -/
inductive Body where
  | mk (attrs : List BAttr) (children : List (String × Body))

/-- The attributes of a body (`JustAttributes`, diagnostics ignored). -/
def Body.attrs : Body → List BAttr
  | .mk a _ => a

/-- The nested blocks of a body. -/
def Body.children : Body → List (String × Body)
  | .mk _ c => c

mutual

/-- `extractNestedBlockDeps` from resolve.go: walk a list of nested blocks,
attributing every traversal found in their attributes (at any depth) to the
enclosing top-level `parentKey`. -/
def extractNestedBlockDeps (parentKey : String) (knownTypes : List String)
    (blockInfos : List BlockInfo) : Deps → List (String × Body) → Deps
  | deps, [] => deps
  | deps, (_, b) :: rest =>
      let deps1 := nestedBodyDeps parentKey knownTypes blockInfos deps b
      extractNestedBlockDeps parentKey knownTypes blockInfos deps1 rest

/-- Process one nested block's body: its own attributes, then recurse into
deeper nested blocks. -/
def nestedBodyDeps (parentKey : String) (knownTypes : List String)
    (blockInfos : List BlockInfo) : Deps → Body → Deps
  | deps, .mk attrs children =>
      let deps1 := attrs.foldl (fun d a =>
        (exprVars a.expr).foldl
          (fun d t => addDependency d parentKey t knownTypes blockInfos) d) deps
      extractNestedBlockDeps parentKey knownTypes blockInfos deps1 children

end

/-- The known root names: block type names plus top-level attribute names. -/
def knownTypesOf (blocks : List (BlockInfo × Body)) (attrs : List BAttr) : List String :=
  blocks.map (fun p => p.1.typeName) ++ attrs.map (fun a => a.name)

/-- The combined info list used for labeled-block lookups: block infos
followed by one attribute info per top-level attribute. -/
def allInfosOf (blocks : List (BlockInfo × Body)) (attrs : List BAttr) : List BlockInfo :=
  blocks.map Prod.fst ++
    attrs.map (fun a => { typeName := a.name, isAttr := true : BlockInfo })

/-- `buildDependencyGraph` from resolve.go: known root names are the block
type names plus the top-level attribute names; every block contributes the
traversals of its attributes and of all nested blocks' attributes under its
own key, and every top-level attribute contributes its traversals under its
name.  Blocks are given together with their `blockInfo` (the Go code keeps
them in two parallel slices). -/
def buildDependencyGraph (blocks : List (BlockInfo × Body)) (attrs : List BAttr) : Deps :=
  let knownTypes := knownTypesOf blocks attrs
  let allInfos := allInfosOf blocks attrs
  let deps1 := blocks.foldl (fun d p =>
    let key := p.1.key
    let d := ensureEntry d key
    let d := p.2.attrs.foldl (fun d a =>
      (exprVars a.expr).foldl
        (fun d t => addDependency d key t knownTypes allInfos) d) d
    extractNestedBlockDeps key knownTypes allInfos d p.2.children) ([] : Deps)
  attrs.foldl (fun d a =>
    let d := ensureEntry d a.name
    (exprVars a.expr).foldl
      (fun d t => addDependency d a.name t knownTypes allInfos) d) deps1

/-- Append a key if it was not seen yet (the `seen` map of `topoSort`). -/
def addKeyOnce (acc : List String) (k : String) : List String :=
  if acc.contains k then acc else acc ++ [k]

/-- The unique keys of the catalog, in first-seen order. -/
def keysOf (blockInfos : List BlockInfo) : List String :=
  blockInfos.foldl (fun acc bi => addKeyOnce acc bi.key) []

/-- The dependencies of `k` that are themselves catalogued keys (the
`seen[dep]` filter of `topoSort`). -/
def restrictedDeps (keys : List String) (deps : Deps) (k : String) : List String :=
  (lookupDeps deps k).filter (fun d => keys.contains d)

/-- The initial in-degree map of `topoSort`: for each catalogued key, the
number of its dependencies that are catalogued (dependency sets are
deduplicated, so the count is the filtered length). -/
def initInDeg (keys : List String) (deps : Deps) (k : String) : Int :=
  if keys.contains k then ((restrictedDeps keys deps k).length : Int) else 0

/-- The Kahn worklist loop of `topoSort`: pop the queue head, append it to
the output, decrement the in-degree of every catalogued key that depends on
it and enqueue (in catalog order) those whose in-degree becomes exactly 0.
The fuel is `keys.length`; the loop can never iterate more often than that
because every key is enqueued at most once (proved below). -/
def kahnLoop (keys : List String) (deps : Deps) :
    Nat → List String → List String → (String → Int) → List String
  | 0, _, sorted, _ => sorted
  | _ + 1, [], sorted, _ => sorted
  | fuel + 1, node :: queue, sorted, inDeg =>
      let newly := keys.filter (fun k =>
        (lookupDeps deps k).contains node && inDeg k == 1)
      let inDeg' := fun k =>
        if keys.contains k && (lookupDeps deps k).contains node then inDeg k - 1 else inDeg k
      kahnLoop keys deps fuel (queue ++ newly) (sorted ++ [node]) inDeg'

/-- `CycleError` from errors.go. -/
structure CycleError where
  Cycle : List String
deriving DecidableEq, Repr

/-- The DFS bookkeeping of `findCycle`: `visited` (0 = unvisited, 1 =
in-stack, 2 = done) and the parent-pointer map (Go map reads default to
`""`). -/
structure DfsState where
  visited : String → Nat
  parent : String → String

/-- Update the visited mark of one node. -/
def setVisited (s : DfsState) (k : String) (v : Nat) : DfsState :=
  { s with visited := fun x => if x == k then v else s.visited x }

/-- Record a parent pointer. -/
def setParent (s : DfsState) (k p : String) : DfsState :=
  { s with parent := fun x => if x == k then p else s.parent x }

/-- The parent-pointer walk of `findCycle`'s reconstruction: starting from
`node`, repeatedly step to the parent, stopping when the target `dep` is
reached, appending every strictly intermediate node.  The fuel bounds the
walk (the Go loop relies on the parent chain reaching `dep`, which holds in
every state `findCycle` can produce). -/
def buildCycleWalk (parent : String → String) (dep : String) :
    Nat → String → List String → List String
  | 0, _, acc => acc
  | fuel + 1, cur, acc =>
      if cur == dep then acc
      else
        let cur' := parent cur
        if cur' == dep then acc else buildCycleWalk parent dep fuel cur' (acc ++ [cur'])

/-- The cycle reconstruction of `findCycle`: start from `[dep, node]`, walk
parent pointers, reverse, and append `dep` once more. -/
def buildCycle (parent : String → String) (node dep : String) (fuel : Nat) : List String :=
  let walked := buildCycleWalk parent dep fuel node [dep, node]
  walked.reverse ++ [dep]

/-- The neighbor-scanning loop of `findCycle`'s `dfs`, parameterized by the
recursive visitor (so that the whole DFS reduces by structural recursion):
an in-stack target yields the reconstructed cycle, an unvisited target is
visited recursively (recording its parent), a finished target is skipped;
when the list is exhausted the node is marked done. -/
def dfsScan (deps : Deps) (cycleFuel : Nat)
    (visit : String → DfsState → Option (List String) × DfsState)
    (node : String) : List String → DfsState → Option (List String) × DfsState
  | [], s => (none, setVisited s node 2)
  | dep :: rest, s =>
      if s.visited dep == 1 then
        (some (buildCycle s.parent node dep cycleFuel), s)
      else if s.visited dep == 0 then
        let s1 := setParent s dep node
        match visit dep s1 with
        | (some c, s2) => (some c, s2)
        | (none, s2) => dfsScan deps cycleFuel visit node rest s2
      else
        dfsScan deps cycleFuel visit node rest s

/-- The recursive `dfs` closure of `findCycle`: mark the node in-stack and
scan its dependencies.  The fuel bounds the recursion depth (`findCycle`
passes more fuel than there are nodes in the graph, so it never runs out);
the recursion is expressed through `Nat.rec` so that evaluation reduces in
the kernel. -/
def dfsVisit (deps : Deps) (cycleFuel : Nat) (fuel : Nat) :
    String → DfsState → Option (List String) × DfsState :=
  Nat.rec (motive := fun _ => String → DfsState → Option (List String) × DfsState)
    (fun _ s => (none, s))
    (fun _ prev node s =>
      let s1 := setVisited s node 1
      dfsScan deps cycleFuel prev node (lookupDeps deps node) s1)
    fuel

/-- The outer loop of `findCycle`: start a DFS from every still-unvisited
key, in catalog order. -/
def findCycleLoop (deps : Deps) (cycleFuel dfsFuel : Nat) :
    List String → DfsState → Option (List String)
  | [], _ => none
  | k :: rest, s =>
      if s.visited k == 0 then
        match dfsVisit deps cycleFuel dfsFuel k s with
        | (some c, _) => some c
        | (none, s') => findCycleLoop deps cycleFuel dfsFuel rest s'
      else findCycleLoop deps cycleFuel dfsFuel rest s

/-- The total number of edges listed in the graph (a bound on the number of
nodes a DFS can ever reach beyond the catalog keys). -/
def totalDepsLen (deps : Deps) : Nat :=
  deps.foldl (fun n e => n + e.2.length) 0

/-- `findCycle` from resolve.go: DFS-based cycle extraction, with the
`"unknown cycle"` fallback when no back edge is found. -/
def findCycle (keys : List String) (deps : Deps) : List String :=
  let fuel := keys.length + totalDepsLen deps + 1
  let s0 : DfsState := { visited := fun _ => 0, parent := fun _ => "" }
  match findCycleLoop deps fuel fuel keys s0 with
  | some c => c
  | none => ["unknown cycle"]

/-- `topoSort` from resolve.go: Kahn's algorithm over the deduplicated
catalog keys, returning the sorted order or a `CycleError` produced by
`findCycle`.  (The Go code also inserts empty entries into `deps` for all
keys before the loop; that mutation is invisible to `lookupDeps` and to
`findCycle`, so it has no embedded counterpart.) -/
def topoSort (blockInfos : List BlockInfo) (deps : Deps) : Except CycleError (List String) :=
  let keys := keysOf blockInfos
  let inDeg0 := initInDeg keys deps
  let queue0 := keys.filter (fun k => inDeg0 k == 0)
  let sorted := kahnLoop keys deps keys.length queue0 [] inDeg0
  if sorted.length != keys.length then
    .error ⟨findCycle keys deps⟩
  else
    .ok sorted

def DepsWF (deps : Deps) : Prop := ∀ e ∈ deps, e.2.Nodup

section DefSec1

variable (keys : List String) (deps : Deps)

def unsortedRest (sorted : List String) (k : String) : List String :=
  (restrictedDeps keys deps k).filter (fun d => !sorted.contains d)

def RespectsDeps (order : List String) : Prop :=
  ∀ (i : Nat) (h : i < order.length),
    ∀ d ∈ restrictedDeps keys deps (order[i]), d ∈ order.take i

structure KahnInv (fuel : Nat) (queue sorted : List String) (inDeg : String → Int) : Prop where
  sorted_nodup : sorted.Nodup
  sorted_sub : ∀ k ∈ sorted, k ∈ keys
  queue_nodup : queue.Nodup
  queue_sub : ∀ k ∈ queue, k ∈ keys
  disj : ∀ k ∈ queue, k ∉ sorted
  deg : ∀ k ∈ keys, inDeg k = ((unsortedRest keys deps sorted k).length : Int)
  queue_deps : ∀ k ∈ queue, ∀ d ∈ restrictedDeps keys deps k, d ∈ sorted
  zero_in : ∀ k ∈ keys, inDeg k = 0 → k ∈ sorted ∨ k ∈ queue
  edge_order : RespectsDeps keys deps sorted
  fuel_eq : fuel + sorted.length = keys.length

def EdgeR (a b : String) : Prop :=
  a ∈ keys ∧ b ∈ keys ∧ b ∈ lookupDeps deps a

def ReachN : Nat → String → String → Prop
  | 0, a, b => a = b
  | n + 1, a, c => ∃ b, EdgeR keys deps a b ∧ ReachN n b c

def NoCycle : Prop := ¬ ∃ a n, ReachN keys deps (n + 1) a a

end DefSec1

mutual

/-- All traversals contributed by a list of nested blocks, in the order
`extractNestedBlockDeps` visits them. -/
def nestedTravs : List (String × Body) → List Traversal
  | [] => []
  | (_, b) :: rest => bodyTravs b ++ nestedTravs rest

/-- All traversals contributed by one nested block body. -/
def bodyTravs : Body → List Traversal
  | .mk attrs children =>
      attrs.foldl (fun acc a => acc ++ exprVars a.expr) [] ++ nestedTravs children

end

/-- All traversals of a top-level block: its own attributes' traversals
followed by those of every nested block. -/
def blockTravs (b : Body) : List Traversal :=
  b.attrs.foldl (fun acc a => acc ++ exprVars a.expr) [] ++ nestedTravs b.children

/-- `envFunction` from env.go: the one-argument `env()` builtin.  The OS
environment (`os.LookupEnv`) is an external collaborator, embedded as a
lookup function; `cty` string values are embedded as `String` and the
error return as `Except`. -/
def envFunction (strict : Bool) (lookupEnv : String → Option String) (name : String) :
    Except String String :=
  match lookupEnv name with
  | none =>
      if strict then .error ("environment variable \"" ++ name ++ "\" is not set")
      else .ok ""
  | some v => .ok v

/-- `envOrFunction` from env.go: the two-argument `env_or()` builtin. -/
def envOrFunction (lookupEnv : String → Option String) (name fallback : String) :
    Except String String :=
  match lookupEnv name with
  | none => .ok fallback
  | some v => .ok v

/-- An `hcl.Diagnostic`: summary, detail, and optional subject range. -/
structure Diag where
  summary : String
  detail : String := ""
  subject : Option Rng := none
deriving DecidableEq, Repr

/-- The error kinds `Load` can return: `DiagnosticsError`, `CycleError`, or
a plain formatted error (`fmt.Errorf`, used for the missing-`default`
message). -/
inductive LoadErr where
  | diag (diags : List Diag)
  | cycle (path : List String)
  | strErr (msg : String)
deriving DecidableEq, Repr

/-- The evaluation environment (`hcl.EvalContext.Variables`), read
pointwise. -/
abbrev Env := String → Option Value

/-- Update one variable binding. -/
def envSet (env : Env) (name : String) (v : Value) : Env :=
  fun n => if n == name then some v else env n

/-- Evaluate a traversal against the environment (the expression engine
collaborator): look up the root, then walk attribute accesses through
object values.  Failures return the diagnostic summary text. -/
def evalTraversal (env : Env) (t : Traversal) : Except String Value :=
  match env t.root with
  | none => .error ("Unknown variable: " ++ t.root)
  | some v0 =>
      t.segs.foldlM (fun v sg =>
        match sg, v with
        | .attr a, .obj fields =>
            (match fields.find? (fun f => f.1 == a) with
             | some f => Except.ok f.2
             | none => Except.error ("Unsupported attribute: " ++ a))
        | .attr _, _ => .error "Unsupported attribute access"
        | .index _, _ => .error "Index operation not supported") v0

/-- Render a value inside a string template (strings, numbers and booleans
render; objects do not). -/
def renderValue : Value → Except String String
  | .str s => .ok s
  | .num n => .ok (toString n)
  | .bool b => .ok (if b then "true" else "false")
  | .obj _ => .error "Cannot include the given value in a string template"

/-- Evaluate an expression against the environment. -/
def evalExpr (env : Env) : Expr → Except String Value
  | .lit v => .ok v
  | .tref t => evalTraversal env t
  | .interp ps => do
      let s ← ps.foldlM (fun acc p =>
        match p with
        | .s txt => Except.ok (acc ++ txt)
        | .r t => do
            let v ← evalTraversal env t
            let r ← renderValue v
            Except.ok (acc ++ r)) ""
      Except.ok (.str s)

/-- Lexicographic comparison of character lists by code point (kernel
reducible). -/
def charsLe : List Char → List Char → Bool
  | [], _ => true
  | _ :: _, [] => false
  | a :: as, b :: bs =>
      if a.toNat < b.toNat then true
      else if b.toNat < a.toNat then false
      else charsLe as bs

/-- Name order on object fields. -/
def strLe (a b : String) : Bool := charsLe a.data b.data

/-- Insert a field into a name-sorted field list. -/
def insertField (p : String × Value) : List (String × Value) → List (String × Value)
  | [] => [p]
  | q :: rest => if strLe p.1 q.1 then p :: q :: rest else q :: insertField p rest

/-- Sort object fields by name (insertion sort): `cty.ObjectVal` is built
from a Go map, so the attribute order of a constructed object is canonical,
not insertion order. -/
def sortFields (l : List (String × Value)) : List (String × Value) :=
  l.foldr insertField []

/-- The canonical object value of a Go `map[string]cty.Value`. -/
def objOfMap (l : List (String × Value)) : Value := .obj (sortFields l)

/-- Go map assignment `m[k] = v` on an association list. -/
def assocSet (l : List (String × Value)) (k : String) (v : Value) : List (String × Value) :=
  if l.any (fun e => e.1 == k) then l.map (fun e => if e.1 == k then (k, v) else e)
  else l ++ [(k, v)]

/-- Association-list lookup. -/
def assocGet (l : List (String × Value)) (k : String) : Option Value :=
  match l.find? (fun e => e.1 == k) with
  | some e => some e.2
  | none => none

/-- A `var` block: its label, body, and definition range. -/
structure VarBlock where
  label : String
  body : Body
  defRange : Rng

/-- A user block: type name, optional label (empty when unlabeled), body,
and definition range. -/
structure UserBlock where
  typeName : String
  label : String := ""
  body : Body
  defRange : Rng

/-- The key of a user block. -/
def UserBlock.key (b : UserBlock) : String :=
  BlockInfo.key { typeName := b.typeName, label := b.label }

/-- The key of a `var` block. -/
def VarBlock.key (vb : VarBlock) : String :=
  BlockInfo.key { typeName := "var", label := vb.label }

/-- A parsed configuration document, after `PartialContent` has split off
the `var` blocks and the schema collaborator has produced the remaining
blocks and top-level attributes.  The `attrs` list order stands in for the
Go map iteration order over `content.Attributes`.  The destination shape is
modelled as: every block type name has a field, labeled block types map to
slice fields and unlabeled ones to single-struct fields, and every
top-level attribute has a field. -/
structure Doc where
  vars : List VarBlock
  blocks : List UserBlock
  attrs : List BAttr

/-- The block infos of the `var` blocks (step 4 of `Load`). -/
def varBlockInfosOf (doc : Doc) : List BlockInfo :=
  doc.vars.map (fun vb => { typeName := "var", label := vb.label })

/-- The block infos of the user blocks (step 4 of `Load`). -/
def userBlockInfosOf (doc : Doc) : List BlockInfo :=
  doc.blocks.map (fun b => { typeName := b.typeName, label := b.label })

/-- The combined block list handed to the dependency-graph builder
(step 5 of `Load`): `var` blocks first, then user blocks. -/
def allBlocksOf (doc : Doc) : List (BlockInfo × Body) :=
  doc.vars.map (fun vb => (({ typeName := "var", label := vb.label } : BlockInfo), vb.body)) ++
    doc.blocks.map (fun b => (({ typeName := b.typeName, label := b.label } : BlockInfo), b.body))

/-- The info list handed to `topoSort`: block infos then attribute infos. -/
def loadInfosOf (doc : Doc) : List BlockInfo :=
  varBlockInfosOf doc ++ userBlockInfosOf doc ++
    doc.attrs.map (fun a => { typeName := a.name, isAttr := true })

/-- The dependency graph `Load` builds. -/
def loadDepsOf (doc : Doc) : Deps :=
  buildDependencyGraph (allBlocksOf doc) doc.attrs

/-- The resolver state: the evaluation environment, the cumulative `var`
values map, the accumulated labeled-block slices (per type, in decode
order), and the decoded destination values (attributes and unlabeled
blocks). -/
structure LoadState where
  env : Env
  varValues : List (String × Value)
  slices : List (String × List (String × Value))
  dstAttrs : List (String × Value)
  dstSingles : List (String × Value)

/-- Look up a type's accumulated slice. -/
def getSlice (slices : List (String × List (String × Value))) (t : String) :
    List (String × Value) :=
  match slices.find? (fun e => e.1 == t) with
  | some e => e.2
  | none => []

/-- Append decoded labeled instances to a type's slice. -/
def pushSlice (slices : List (String × List (String × Value))) (t : String)
    (items : List (String × Value)) : List (String × List (String × Value)) :=
  if slices.any (fun e => e.1 == t) then
    slices.map (fun e => if e.1 == t then (e.1, e.2 ++ items) else e)
  else
    slices ++ [(t, items)]

mutual

/-- `gohcl.DecodeBody` against the current environment, composed with the
conversion back to an environment value (`structToCtyValue`): evaluate every
attribute (collecting a diagnostic per failing attribute, subject = the
attribute's range, as the expression engine reports), and decode nested
blocks recursively into nested object values. -/
def decodeBody (env : Env) : Body → List Diag × List (String × Value)
  | .mk attrs children =>
      let ar := attrs.foldl (fun (acc : List Diag × List (String × Value)) a =>
        match evalExpr env a.expr with
        | .ok v => (acc.1, acc.2 ++ [(a.name, v)])
        | .error msg => (acc.1 ++ [{ summary := msg, subject := some a.range }], acc.2))
        ([], [])
      let cr := decodeChildren env children
      (ar.1 ++ cr.1, ar.2 ++ cr.2)

/-- Decode a list of nested blocks into named object fields. -/
def decodeChildren (env : Env) : List (String × Body) → List Diag × List (String × Value)
  | [] => ([], [])
  | (nm, b) :: rest =>
      let r := decodeBody env b
      let rr := decodeChildren env rest
      (r.1 ++ rr.1, (nm, Value.obj (sortFields r.2)) :: rr.2)

end

/-- The `fmt.Errorf` message for a `var` block without a `default`
attribute. -/
def missingDefaultMsg (r : Rng) (label : String) : String :=
  r.filename ++ ":" ++ toString r.line ++ ": var \"" ++ label ++
    "\" missing required \"default\" attribute"

/-- `wrapBlockDiags` from loader.go: annotate decode diagnostics with the
enclosing block's type and label, plus a location — the diagnostic's own
subject location when it has one, otherwise the block's definition range —
and default the subject to the block's definition range. -/
def wrapBlockDiags (typeName label : String) (defRange : Rng) (diags : List Diag) :
    List Diag :=
  diags.map (fun d =>
    let lab := if label ≠ "" then " \"" ++ label ++ "\"" else ""
    let detail := "In " ++ typeName ++ lab ++ " block" ++
      (match d.subject with
       | some r => " defined at " ++ r.filename ++ ":" ++ toString r.line
       | none => " at " ++ defRange.filename ++ ":" ++ toString defRange.line) ++
      (if d.detail ≠ "" then ": " ++ d.detail else "")
    { summary := d.summary, detail := detail,
      subject := (match d.subject with | some r => some r | none => some defRange) })

/-- The diagnostic `hclsyntax`'s `JustAttributes` reports when a body
contains nested blocks. -/
def unexpectedBlockDiag : Diag :=
  { summary := "Blocks are not allowed here" }

/-- Resolve one `var` block (the var branch of `Load`'s decode loop):
`JustAttributes` (failing if the body holds nested blocks), require the
`default` attribute, evaluate it, record the value in the cumulative map and
republish the whole map under `var`. -/
def varStep (env : Env) (varValues : List (String × Value)) (vb : VarBlock) :
    Except LoadErr (Env × List (String × Value)) :=
  if !vb.body.children.isEmpty then
    .error (.diag [unexpectedBlockDiag])
  else
    match vb.body.attrs.find? (fun a => a.name == "default") with
    | none => .error (.strErr (missingDefaultMsg vb.defRange vb.label))
    | some a =>
        match evalExpr env a.expr with
        | .error msg => .error (.diag [{ summary := msg, subject := some a.range }])
        | .ok v =>
            let varValues1 := assocSet varValues vb.label v
            .ok (envSet env "var" (objOfMap varValues1), varValues1)

/-- Resolve one key (the body of `Load`'s decode loop): a `var` block, a
top-level attribute, or a (group of) user block(s) with that key. -/
def stepKey (doc : Doc) (st : LoadState) (key : String) : Except LoadErr LoadState :=
  match (doc.vars.reverse).find? (fun vb => vb.key == key) with
  | some vb =>
      match varStep st.env st.varValues vb with
      | .error e => .error e
      | .ok (env1, vv1) => .ok { st with env := env1, varValues := vv1 }
  | none =>
      if doc.attrs.any (fun a => a.name == key) then
        match doc.attrs.find? (fun a => a.name == key) with
        | none => .ok st
        | some a =>
            match evalExpr st.env a.expr with
            | .error msg => .error (.diag [{ summary := msg, subject := some a.range }])
            | .ok v =>
                .ok { st with
                  env := envSet st.env key v,
                  dstAttrs := st.dstAttrs ++ [(key, v)] }
      else
        match doc.blocks.filter (fun b => b.key == key) with
        | [] => .ok st
        | b0 :: brest =>
            if b0.label != "" then
              -- labeled blocks decode into a slice field, then the whole
              -- accumulated slice is republished as a label-keyed object
              match (b0 :: brest).foldl (fun acc b =>
                match acc with
                | .error e => .error e
                | .ok items =>
                    match decodeBody st.env b.body with
                    | ([], entries) => .ok (items ++ [(b.label, Value.obj (sortFields entries))])
                    | (d :: ds, _) =>
                        .error (.diag (wrapBlockDiags b0.typeName b.label b.defRange (d :: ds))))
                (Except.ok []) with
              | .error e => .error e
              | .ok items =>
                  let slices1 := pushSlice st.slices b0.typeName items
                  .ok { st with
                    slices := slices1,
                    env := envSet st.env b0.typeName
                      (Value.obj (sortFields (getSlice slices1 b0.typeName))) }
            else
              match decodeBody st.env b0.body with
              | ([], entries) =>
                  let v := Value.obj (sortFields entries)
                  .ok { st with
                    env := envSet st.env b0.typeName v,
                    dstSingles := st.dstSingles ++ [(b0.typeName, v)] }
              | (d :: ds, _) =>
                  .error (.diag (wrapBlockDiags b0.typeName b0.label b0.defRange (d :: ds)))

/-- The decode loop of `Load`: process the keys in topological order,
aborting at the first failure. -/
def runKeys (doc : Doc) : LoadState → List String → Except LoadErr LoadState
  | st, [] => .ok st
  | st, k :: rest =>
      match stepKey doc st k with
      | .error e => .error e
      | .ok st1 => runKeys doc st1 rest

/-- The initial resolver state: the caller-seeded environment, and empty
accumulators. -/
def initState (seed : Env) : LoadState :=
  { env := seed, varValues := [], slices := [], dstAttrs := [], dstSingles := [] }

/-- `Load` from loader.go (the pipeline after parsing): build the combined
catalog, the dependency graph and the topological order, then decode every
key in order against the growing environment. -/
def loadModel (doc : Doc) (seed : Env) : Except LoadErr LoadState :=
  match topoSort (loadInfosOf doc) (loadDepsOf doc) with
  | .error ce => .error (.cycle ce.Cycle)
  | .ok sortedKeys => runKeys doc (initState seed) sortedKeys

/-- Does `s` start with `pat`? -/
def leadsWith : List Char → List Char → Bool
  | [], _ => true
  | _ :: _, [] => false
  | a :: as, b :: bs => a == b && leadsWith as bs

/-- Does `pat` occur contiguously inside `s`? -/
def hasSub (pat : List Char) : List Char → Bool
  | [] => leadsWith pat []
  | c :: rest => leadsWith pat (c :: rest) || hasSub pat rest

/-- Does the string `s` contain `pat` as a contiguous substring? -/
def strHas (s pat : String) : Bool := hasSub pat.data s.data

/-- A source location rendered as `file:line`. -/
def locString (r : Rng) : String := r.filename ++ ":" ++ toString r.line

/-- One wrapped diagnostic, as `wrapBlockDiags` produces it. -/
def wrappedDiag (T l : String) (r : Rng) (d0 : Diag) : Diag where
  summary := d0.summary
  detail := "In " ++ T ++ (if l ≠ "" then " \"" ++ l ++ "\"" else "") ++ " block" ++
    (match d0.subject with
     | some rng => " defined at " ++ rng.filename ++ ":" ++ toString rng.line
     | none => " at " ++ r.filename ++ ":" ++ toString r.line) ++
    (if d0.detail ≠ "" then ": " ++ d0.detail else "")
  subject := (match d0.subject with | some rng => some rng | none => some r)

def varBaseBlock : VarBlock :=
  ⟨"base", .mk [⟨"default", .lit (.str "example.com"), ⟨"v.hcl", 1⟩⟩] [], ⟨"v.hcl", 1⟩⟩

def varHostBlock : VarBlock :=
  ⟨"host", .mk [⟨"default", .interp [.s "api.", .r ⟨"var", [.attr "base"]⟩], ⟨"v.hcl", 4⟩⟩] [], ⟨"v.hcl", 4⟩⟩

def svcApi : UserBlock :=
  ⟨"service", "api", .mk [⟨"port", .lit (.num 1), ⟨"s.hcl", 1⟩⟩] [], ⟨"s.hcl", 1⟩⟩

def svcWeb : UserBlock :=
  ⟨"service", "web", .mk [⟨"port", .lit (.num 2), ⟨"s.hcl", 4⟩⟩] [], ⟨"s.hcl", 4⟩⟩

def docBlk : UserBlock :=
  ⟨"doc", "", .mk [⟨"ref", .tref ⟨"service", []⟩, ⟨"s.hcl", 8⟩⟩] [], ⟨"s.hcl", 8⟩⟩

/-- Is `key` resolved by the `var` branch of the decode loop? -/
def isVarKeyOf (doc : Doc) (k : String) : Bool :=
  ((doc.vars.reverse).find? (fun vb => vb.key == k)).isSome

/-- The roots of a traversal list. -/
def rootsOf (ts : List Traversal) : List String := ts.map (fun t => t.root)

/-- The environment names the decode step for `k` may read (an
over-approximation by all traversal roots in the key's sources). -/
def stepReads (doc : Doc) (k : String) : List String :=
  match (doc.vars.reverse).find? (fun vb => vb.key == k) with
  | some vb => rootsOf (bodyTravs vb.body)
  | none =>
      if doc.attrs.any (fun a => a.name == k) then
        match doc.attrs.find? (fun a => a.name == k) with
        | some a => rootsOf (exprVars a.expr)
        | none => []
      else
        (doc.blocks.filter (fun b => b.key == k)).foldl
          (fun acc b => acc ++ rootsOf (bodyTravs b.body)) []

/-- The environment names the decode step for `k` writes. -/
def stepWrites (doc : Doc) (k : String) : List String :=
  match (doc.vars.reverse).find? (fun vb => vb.key == k) with
  | some _ => ["var"]
  | none =>
      if doc.attrs.any (fun a => a.name == k) then
        match doc.attrs.find? (fun a => a.name == k) with
        | some _ => [k]
        | none => []
      else
        match doc.blocks.filter (fun b => b.key == k) with
        | [] => []
        | b0 :: _ => [b0.typeName]

/-- What a successful decode step publishes: nothing, a variable, a
top-level attribute, a slice extension, or a single struct. -/
inductive StepDelta where
  | skip
  | pubVar (label : String) (v : Value)
  | pubAttr (name : String) (v : Value)
  | pubSlice (t : String) (items : List (String × Value))
  | pubSingle (t : String) (v : Value)
deriving DecidableEq

/-- Apply a publication to the resolver state. -/
def applyDelta (st : LoadState) : StepDelta → LoadState
  | .skip => st
  | .pubVar l v =>
      let vv1 := assocSet st.varValues l v
      { st with env := envSet st.env "var" (objOfMap vv1), varValues := vv1 }
  | .pubAttr n v =>
      { st with env := envSet st.env n v, dstAttrs := st.dstAttrs ++ [(n, v)] }
  | .pubSlice t items =>
      let s1 := pushSlice st.slices t items
      { st with
        slices := s1,
        env := envSet st.env t (Value.obj (sortFields (getSlice s1 t))) }
  | .pubSingle t v =>
      { st with env := envSet st.env t v, dstSingles := st.dstSingles ++ [(t, v)] }

/-- The environment names a publication writes. -/
def deltaWrites : StepDelta → List String
  | .skip => []
  | .pubVar _ _ => ["var"]
  | .pubAttr n _ => [n]
  | .pubSlice t _ => [t]
  | .pubSingle t _ => [t]

/-- The decision part of the decode step for `k`: what to publish (or which
error to raise), as a function of the document, the environment and the
cumulative variable map only. -/
def stepDelta (doc : Doc) (env : Env) (vv : List (String × Value)) (k : String) :
    Except LoadErr StepDelta :=
  match (doc.vars.reverse).find? (fun vb => vb.key == k) with
  | some vb =>
      if !vb.body.children.isEmpty then
        .error (.diag [unexpectedBlockDiag])
      else
        match vb.body.attrs.find? (fun a => a.name == "default") with
        | none => .error (.strErr (missingDefaultMsg vb.defRange vb.label))
        | some a =>
            match evalExpr env a.expr with
            | .error msg => .error (.diag [{ summary := msg, subject := some a.range }])
            | .ok v => .ok (.pubVar vb.label v)
  | none =>
      if doc.attrs.any (fun a => a.name == k) then
        match doc.attrs.find? (fun a => a.name == k) with
        | none => .ok .skip
        | some a =>
            match evalExpr env a.expr with
            | .error msg => .error (.diag [{ summary := msg, subject := some a.range }])
            | .ok v => .ok (.pubAttr k v)
      else
        match doc.blocks.filter (fun b => b.key == k) with
        | [] => .ok .skip
        | b0 :: brest =>
            if b0.label != "" then
              match (b0 :: brest).foldl (fun acc b =>
                match acc with
                | .error e => .error e
                | .ok items =>
                    match decodeBody env b.body with
                    | ([], entries) => .ok (items ++ [(b.label, Value.obj (sortFields entries))])
                    | (d :: ds, _) =>
                        .error (.diag (wrapBlockDiags b0.typeName b.label b.defRange (d :: ds))))
                (Except.ok []) with
              | .error e => .error e
              | .ok items => .ok (.pubSlice b0.typeName items)
            else
              match decodeBody env b0.body with
              | ([], entries) => .ok (.pubSingle b0.typeName (Value.obj (sortFields entries)))
              | (d :: ds, _) =>
                  .error (.diag (wrapBlockDiags b0.typeName b0.label b0.defRange (d :: ds)))

/-- Two resolver states that publish identically: the environments agree
everywhere, the cumulative variable maps are equal, and every slice and
destination lookup agrees (only list order inside the bookkeeping may
differ). -/
def StateEquiv (s t : LoadState) : Prop :=
  (∀ n, s.env n = t.env n) ∧
  s.varValues = t.varValues ∧
  (∀ T, getSlice s.slices T = getSlice t.slices T) ∧
  (∀ n, assocGet s.dstAttrs n = assocGet t.dstAttrs n) ∧
  (∀ n, assocGet s.dstSingles n = assocGet t.dstSingles n)

def dbBlock : UserBlock :=
  ⟨"database", "", .mk [⟨"host", .lit (.str "localhost"), ⟨"t.hcl", 2⟩⟩,
    ⟨"port", .lit (.num 5432), ⟨"t.hcl", 3⟩⟩] [], ⟨"t.hcl", 1⟩⟩

def appBlock : UserBlock :=
  ⟨"app", "", .mk [⟨"db_url", .interp [.s "postgres://", .r ⟨"database", [.attr "host"]⟩,
    .s ":", .r ⟨"database", [.attr "port"]⟩, .s "/mydb"], ⟨"t.hcl", 6⟩⟩] [], ⟨"t.hcl", 5⟩⟩

section ThmSec2

variable (keys : List String) (deps : Deps)

theorem lookupDeps_nodup (hwf : DepsWF deps) (k : String) : (lookupDeps deps k).Nodup := by
  unfold lookupDeps
  cases h : deps.find? (fun e => e.1 == k) with
  | none => simp
  | some e => exact hwf e (List.mem_of_find?_eq_some h)

theorem restrictedDeps_nodup (hwf : DepsWF deps) (k : String) :
    (restrictedDeps keys deps k).Nodup :=
  (lookupDeps_nodup deps hwf k).filter _

theorem kahn_exhaust (hk : keys.Nodup) (sorted : List String)
    (h1 : sorted.Nodup) (h2 : ∀ k ∈ sorted, k ∈ keys)
    (hlen : sorted.length = keys.length) : ∀ k ∈ keys, k ∈ sorted := by
  intro k hkmem
  have hsub : sorted.toFinset ⊆ keys.toFinset := by
    intro x hx
    simp only [List.mem_toFinset] at *
    exact h2 x hx
  have hcard : keys.toFinset.card ≤ sorted.toFinset.card := by
    rw [List.toFinset_card_of_nodup hk, List.toFinset_card_of_nodup h1, hlen]
  have heq := Finset.eq_of_subset_of_card_le hsub hcard
  have : k ∈ sorted.toFinset := by rw [heq, List.mem_toFinset]; exact hkmem
  rwa [List.mem_toFinset] at this

/-- Characterization of membership in `unsortedRest`. -/
theorem mem_unsortedRest (sorted : List String) (k d : String) :
    d ∈ unsortedRest keys deps sorted k ↔
      d ∈ restrictedDeps keys deps k ∧ d ∉ sorted := by
  simp [unsortedRest, List.mem_filter]

theorem mem_restrictedDeps (k d : String) :
    d ∈ restrictedDeps keys deps k ↔ d ∈ lookupDeps deps k ∧ d ∈ keys := by
  simp [restrictedDeps, List.mem_filter]

/-- At the loop exit (empty queue), every unsorted key has an unsorted
restricted dependency. -/
theorem kahn_stuck (fuel : Nat) (sorted : List String) (inDeg : String → Int)
    (inv : KahnInv keys deps fuel [] sorted inDeg) :
    ∀ k ∈ keys, k ∉ sorted → ∃ d ∈ restrictedDeps keys deps k, d ∉ sorted := by
  intro k hkk hks
  have hz : inDeg k ≠ 0 := by
    intro h0
    rcases inv.zero_in k hkk h0 with h | h
    · exact hks h
    · simp at h
  have hdeg := inv.deg k hkk
  have hne : unsortedRest keys deps sorted k ≠ [] := by
    intro hnil
    rw [hnil] at hdeg
    simp at hdeg
    exact hz hdeg
  rcases List.exists_mem_of_ne_nil _ hne with ⟨d, hd⟩
  rw [mem_unsortedRest] at hd
  exact ⟨d, hd.1, hd.2⟩

theorem filter_ne_of_not_mem (a : String) (l : List String) (h : a ∉ l) :
    l.filter (fun d => !(d == a)) = l := by
  apply List.filter_eq_self.mpr
  intro d hd
  simp
  intro he
  exact absurd (he ▸ hd) h

theorem length_filter_ne_of_nodup (a : String) :
    ∀ (l : List String), l.Nodup → a ∈ l →
      (l.filter (fun d => !(d == a))).length + 1 = l.length := by
  intro l
  induction l with
  | nil => intro _ h; simp at h
  | cons x xs ih =>
      intro hnd hmem
      rcases List.nodup_cons.mp hnd with ⟨hx, hxs⟩
      by_cases hxa : x = a
      · subst hxa
        have hf : xs.filter (fun d => !(d == x)) = xs := filter_ne_of_not_mem x xs hx
        simp [List.filter_cons, hf]
      · have hmem' : a ∈ xs := by
          rcases List.mem_cons.mp hmem with h | h
          · exact absurd h (fun he => hxa he.symm)
          · exact h
        have hcond : (!(x == a)) = true := by simp [hxa]
        rw [List.filter_cons, if_pos hcond]
        simp only [List.length_cons]
        rw [← ih hxs hmem']

theorem unsortedRest_append_node (sorted : List String) (node k : String) :
    unsortedRest keys deps (sorted ++ [node]) k
      = (unsortedRest keys deps sorted k).filter (fun d => !(d == node)) := by
  unfold unsortedRest
  rw [List.filter_filter]
  congr 1
  funext d
  by_cases h1 : d ∈ sorted <;> by_cases h2 : d = node <;> simp [h1, h2]

theorem sorted_deps_closed (sorted : List String)
    (ho : RespectsDeps keys deps sorted) :
    ∀ k ∈ sorted, ∀ d ∈ restrictedDeps keys deps k, d ∈ sorted := by
  intro k hks d hd
  rcases List.mem_iff_getElem.mp hks with ⟨i, hi, heq⟩
  subst heq
  exact List.mem_of_mem_take (ho i hi d hd)

theorem kahnLoop_spec (hk : keys.Nodup) (hwf : DepsWF deps) :
    ∀ (fuel : Nat) (queue sorted : List String) (inDeg : String → Int),
    KahnInv keys deps fuel queue sorted inDeg →
    (kahnLoop keys deps fuel queue sorted inDeg).Nodup ∧
    (∀ k ∈ kahnLoop keys deps fuel queue sorted inDeg, k ∈ keys) ∧
    RespectsDeps keys deps (kahnLoop keys deps fuel queue sorted inDeg) ∧
    (∀ k ∈ keys, k ∉ kahnLoop keys deps fuel queue sorted inDeg →
      ∃ d ∈ restrictedDeps keys deps k, d ∉ kahnLoop keys deps fuel queue sorted inDeg) := by
  intro fuel
  induction fuel with
  | zero =>
      intro queue sorted inDeg inv
      have hres : kahnLoop keys deps 0 queue sorted inDeg = sorted := rfl
      rw [hres]
      have hlen : sorted.length = keys.length := by
        have := inv.fuel_eq; omega
      have hall := kahn_exhaust keys hk sorted inv.sorted_nodup inv.sorted_sub hlen
      exact ⟨inv.sorted_nodup, inv.sorted_sub, inv.edge_order,
        fun k hkk hns => absurd (hall k hkk) hns⟩
  | succ fuel ih =>
      intro queue sorted inDeg inv
      cases queue with
      | nil =>
          have hres : kahnLoop keys deps (fuel + 1) [] sorted inDeg = sorted := rfl
          rw [hres]
          exact ⟨inv.sorted_nodup, inv.sorted_sub, inv.edge_order,
            kahn_stuck keys deps (fuel + 1) sorted inDeg inv⟩
      | cons node queue =>
          -- preliminary facts about the head node
          have hnodek : node ∈ keys := inv.queue_sub node (List.mem_cons_self _ _)
          have hnodes : node ∉ sorted := inv.disj node (List.mem_cons_self _ _)
          rcases List.nodup_cons.mp inv.queue_nodup with ⟨hnq, hqnd⟩
          have hqdnode : ∀ d ∈ restrictedDeps keys deps node, d ∈ sorted :=
            inv.queue_deps node (List.mem_cons_self _ _)
          have hsorted_closed := sorted_deps_closed keys deps sorted inv.edge_order
          set newly := keys.filter (fun k =>
            (lookupDeps deps k).contains node && inDeg k == 1) with hnewly_def
          set inDeg' := fun k =>
            if keys.contains k && (lookupDeps deps k).contains node then inDeg k - 1
            else inDeg k with hinDegUpd
          have hnewly : ∀ k, k ∈ newly ↔
              k ∈ keys ∧ node ∈ lookupDeps deps k ∧ inDeg k = 1 := by
            intro k
            rw [hnewly_def]
            simp [List.mem_filter, and_assoc]
          have hnew_rd : ∀ k ∈ newly, node ∈ restrictedDeps keys deps k := by
            intro k hkn
            rw [mem_restrictedDeps]
            exact ⟨((hnewly k).mp hkn).2.1, hnodek⟩
          have hnew_not_sorted : ∀ k ∈ newly, k ∉ sorted := by
            intro k hkn hks
            exact hnodes (hsorted_closed k hks node (hnew_rd k hkn))
          have hnew_not_queue : ∀ k ∈ newly, k ∉ node :: queue := by
            intro k hkn hkq
            exact hnodes (inv.queue_deps k hkq node (hnew_rd k hkn))
          have hstep : kahnLoop keys deps (fuel + 1) (node :: queue) sorted inDeg
              = kahnLoop keys deps fuel (queue ++ newly) (sorted ++ [node]) inDeg' := rfl
          rw [hstep]
          apply ih
          constructor
          -- sorted_nodup
          · rw [List.nodup_append]
            exact ⟨inv.sorted_nodup, by simp, by
              intro a ha hb
              rw [List.mem_singleton] at hb
              exact hnodes (hb ▸ ha)⟩
          -- sorted_sub
          · intro k hkmem
            rcases List.mem_append.mp hkmem with h | h
            · exact inv.sorted_sub k h
            · rw [List.mem_singleton] at h
              exact h ▸ hnodek
          -- queue_nodup
          · rw [List.nodup_append]
            refine ⟨hqnd, List.Nodup.filter _ hk, ?_⟩
            intro a ha hb
            exact hnew_not_queue a hb (List.mem_cons_of_mem _ ha)
          -- queue_sub
          · intro k hkmem
            rcases List.mem_append.mp hkmem with h | h
            · exact inv.queue_sub k (List.mem_cons_of_mem _ h)
            · exact ((hnewly k).mp h).1
          -- disj
          · intro k hkmem hks
            rcases List.mem_append.mp hkmem with h | h
            · rcases List.mem_append.mp hks with h2 | h2
              · exact inv.disj k (List.mem_cons_of_mem _ h) h2
              · rw [List.mem_singleton] at h2
                exact hnq (h2 ▸ h)
            · rcases List.mem_append.mp hks with h2 | h2
              · exact hnew_not_sorted k h h2
              · rw [List.mem_singleton] at h2
                exact hnew_not_queue k h (h2 ▸ List.mem_cons_self _ _)
          -- deg
          · intro k hkk
            rw [unsortedRest_append_node]
            by_cases hdep : node ∈ lookupDeps deps k
            · have hcond : (keys.contains k && (lookupDeps deps k).contains node) = true := by
                simp [hkk, hdep]
              have hval : inDeg' k = inDeg k - 1 := by
                rw [hinDegUpd]
                simp only [hcond, if_true]
              have hnr : node ∈ unsortedRest keys deps sorted k := by
                rw [mem_unsortedRest, mem_restrictedDeps]
                exact ⟨⟨hdep, hnodek⟩, hnodes⟩
              have hnd : (unsortedRest keys deps sorted k).Nodup :=
                List.Nodup.filter _ (restrictedDeps_nodup keys deps hwf k)
              have hlen := length_filter_ne_of_nodup node _ hnd hnr
              have hdeg := inv.deg k hkk
              rw [hval, hdeg]
              omega
            · have hcond : (keys.contains k && (lookupDeps deps k).contains node) = false := by
                simp [hdep]
              have hval : inDeg' k = inDeg k := by
                rw [hinDegUpd]
                simp only [hcond, Bool.false_eq_true, if_false]
              have hnr : node ∉ unsortedRest keys deps sorted k := by
                rw [mem_unsortedRest, mem_restrictedDeps]
                intro hc
                exact hdep hc.1.1
              rw [hval, filter_ne_of_not_mem node _ hnr]
              exact inv.deg k hkk
          -- queue_deps
          · intro k hkmem d hd
            rcases List.mem_append.mp hkmem with h | h
            · exact List.mem_append_left _ (inv.queue_deps k (List.mem_cons_of_mem _ h) d hd)
            · rcases (hnewly k).mp h with ⟨hkk, hdep, hone⟩
              by_cases hds : d ∈ sorted
              · exact List.mem_append_left _ hds
              · have hdr : d ∈ unsortedRest keys deps sorted k := by
                  rw [mem_unsortedRest]
                  exact ⟨hd, hds⟩
                have hdeg := inv.deg k hkk
                rw [hone] at hdeg
                have hlen1 : (unsortedRest keys deps sorted k).length = 1 := by omega
                rcases List.length_eq_one.mp hlen1 with ⟨a, ha⟩
                rw [ha, List.mem_singleton] at hdr
                have hnr : node ∈ unsortedRest keys deps sorted k := by
                  rw [mem_unsortedRest, mem_restrictedDeps]
                  exact ⟨⟨hdep, hnodek⟩, hnodes⟩
                rw [ha, List.mem_singleton] at hnr
                rw [hdr, ← hnr]
                exact List.mem_append_right _ (List.mem_singleton_self _)
          -- zero_in
          · intro k hkk hz
            by_cases hdep : node ∈ lookupDeps deps k
            · have hcond : (keys.contains k && (lookupDeps deps k).contains node) = true := by
                simp [hkk, hdep]
              have hval : inDeg' k = inDeg k - 1 := by
                rw [hinDegUpd]
                simp only [hcond, if_true]
              rw [hval] at hz
              right
              apply List.mem_append_right
              rw [hnewly k]
              exact ⟨hkk, hdep, by omega⟩
            · have hcond : (keys.contains k && (lookupDeps deps k).contains node) = false := by
                simp [hdep]
              have hval : inDeg' k = inDeg k := by
                rw [hinDegUpd]
                simp only [hcond, Bool.false_eq_true, if_false]
              rw [hval] at hz
              rcases inv.zero_in k hkk hz with h | h
              · exact Or.inl (List.mem_append_left _ h)
              · rcases List.mem_cons.mp h with h2 | h2
                · exact Or.inl (List.mem_append_right _ (h2 ▸ List.mem_singleton_self _))
                · exact Or.inr (List.mem_append_left _ h2)
          -- edge_order
          · intro i hi d hd
            rw [List.length_append, List.length_singleton] at hi
            by_cases hlt : i < sorted.length
            · rw [List.getElem_append_left hlt] at hd
              rw [List.take_append_of_le_length (Nat.le_of_lt hlt)]
              exact inv.edge_order i hlt d hd
            · have hieq : i = sorted.length := by omega
              subst hieq
              have hlen : sorted.length < (sorted ++ [node]).length := by simp
              have hge : (sorted ++ [node])[sorted.length] = node := by simp
              rw [hge] at hd
              rw [List.take_append_of_le_length (Nat.le_refl _), List.take_length]
              exact hqdnode d hd
          -- fuel_eq
          · have := inv.fuel_eq
            simp only [List.length_append, List.length_singleton]
            omega

theorem restrictedDeps_nil_of_deg_zero (k : String) (hkk : k ∈ keys)
    (h0 : initInDeg keys deps k = 0) : restrictedDeps keys deps k = [] := by
  unfold initInDeg at h0
  rw [if_pos (by simpa using hkk)] at h0
  have : (restrictedDeps keys deps k).length = 0 := by exact_mod_cast h0
  exact List.length_eq_zero.mp this

theorem kahnInv_init (hk : keys.Nodup) :
    KahnInv keys deps keys.length (keys.filter (fun k => initInDeg keys deps k == 0)) []
      (initInDeg keys deps) := by
  constructor
  · exact List.nodup_nil
  · intro k h; simp at h
  · exact hk.filter _
  · intro k h; exact (List.mem_filter.mp h).1
  · intro k _ h; simp at h
  · intro k hkk
    simp [initInDeg, unsortedRest, hkk]
  · intro k hq d hd
    rcases List.mem_filter.mp hq with ⟨hkk, hz⟩
    have h0 : initInDeg keys deps k = 0 := by simpa using hz
    rw [restrictedDeps_nil_of_deg_zero keys deps k hkk h0] at hd
    simp at hd
  · intro k hkk h0
    right
    exact List.mem_filter.mpr ⟨hkk, by simp [h0]⟩
  · intro i hi
    simp at hi
  · simp

end ThmSec2

theorem keysOf_aux_nodup : ∀ (l : List BlockInfo) (acc : List String), acc.Nodup →
    (l.foldl (fun acc bi => addKeyOnce acc bi.key) acc).Nodup := by
  intro l
  induction l with
  | nil => intro acc h; exact h
  | cons x xs ih =>
      intro acc h
      apply ih
      show (addKeyOnce acc x.key).Nodup
      unfold addKeyOnce
      by_cases hc : x.key ∈ acc
      · simp [hc, h]
      · rw [if_neg (by simpa using hc)]
        rw [List.nodup_append]
        refine ⟨h, by simp, ?_⟩
        intro a ha hb
        rw [List.mem_singleton] at hb
        exact hc (hb ▸ ha)

theorem keysOf_nodup (l : List BlockInfo) : (keysOf l).Nodup := by
  exact keysOf_aux_nodup l [] List.nodup_nil

theorem keysOf_aux_mem : ∀ (l : List BlockInfo) (acc : List String) (k : String),
    k ∈ l.foldl (fun acc bi => addKeyOnce acc bi.key) acc ↔ k ∈ acc ∨ ∃ bi ∈ l, bi.key = k := by
  intro l
  induction l with
  | nil => intro acc k; simp
  | cons x xs ih =>
      intro acc k
      simp only [List.foldl_cons]
      rw [ih]
      show k ∈ addKeyOnce acc x.key ∨ _ ↔ _
      unfold addKeyOnce
      by_cases hc : x.key ∈ acc
      · rw [if_pos (by simpa using hc)]
        constructor
        · rintro (h | h)
          · exact Or.inl h
          · exact Or.inr (by rcases h with ⟨bi, hbi, hkey⟩; exact ⟨bi, List.mem_cons_of_mem _ hbi, hkey⟩)
        · rintro (h | ⟨bi, hbi, hkey⟩)
          · exact Or.inl h
          · rcases List.mem_cons.mp hbi with hb | hb
            · exact Or.inl (by rw [← hkey, hb]; exact hc)
            · exact Or.inr ⟨bi, hb, hkey⟩
      · rw [if_neg (by simpa using hc)]
        constructor
        · rintro (h | h)
          · rcases List.mem_append.mp h with h2 | h2
            · exact Or.inl h2
            · rw [List.mem_singleton] at h2
              exact Or.inr ⟨x, List.mem_cons_self _ _, h2.symm⟩
          · exact Or.inr (by rcases h with ⟨bi, hbi, hkey⟩; exact ⟨bi, List.mem_cons_of_mem _ hbi, hkey⟩)
        · rintro (h | ⟨bi, hbi, hkey⟩)
          · exact Or.inl (List.mem_append_left _ h)
          · rcases List.mem_cons.mp hbi with hb | hb
            · exact Or.inl (List.mem_append_right _ (by rw [← hkey, hb]; simp))
            · exact Or.inr ⟨bi, hb, hkey⟩

theorem keysOf_mem (l : List BlockInfo) (k : String) :
    k ∈ keysOf l ↔ ∃ bi ∈ l, bi.key = k := by
  rw [keysOf, keysOf_aux_mem]
  simp

section ThmSec3

variable (keys : List String) (deps : Deps)

theorem reach_g (g : Nat → String)
    (hE : ∀ n, EdgeR keys deps (g n) (g (n + 1))) :
    ∀ (b a : Nat), ReachN keys deps b (g a) (g (a + b)) := by
  intro b
  induction b with
  | zero => intro a; show g a = g (a + 0); rw [Nat.add_zero]
  | succ n ih =>
      intro a
      refine ⟨g (a + 1), hE a, ?_⟩
      have h := ih (a + 1)
      have harith : a + 1 + n = a + (n + 1) := by omega
      rwa [harith] at h

theorem kahn_no_stuck (hacyc : NoCycle keys deps)
    (r : List String)
    (hstuck : ∀ k ∈ keys, k ∉ r → ∃ d ∈ restrictedDeps keys deps k, d ∉ r) :
    ∀ k ∈ keys, k ∈ r := by
  by_contra hcon
  push_neg at hcon
  rcases hcon with ⟨k₀, hk₀, hk₀r⟩
  classical
  set T : Finset String := keys.toFinset.filter (fun k => k ∉ r) with hT
  have hTmem : ∀ k, k ∈ T ↔ k ∈ keys ∧ k ∉ r := by
    intro k; rw [hT]; simp
  have hsucc : ∀ k ∈ T, ∃ d, (d ∈ T) ∧ EdgeR keys deps k d := by
    intro k hkT
    rcases (hTmem k).mp hkT with ⟨hkk, hkr⟩
    rcases hstuck k hkk hkr with ⟨d, hd, hdr⟩
    rw [mem_restrictedDeps] at hd
    exact ⟨d, (hTmem d).mpr ⟨hd.2, hdr⟩, ⟨hkk, hd.2, hd.1⟩⟩
  have hex : ∀ k, k ∈ T → ∃ d, (d ∈ T) ∧ EdgeR keys deps k d := hsucc
  set σ : String → String := fun k =>
    if h : ∃ d, (d ∈ T) ∧ EdgeR keys deps k d then h.choose else k with hσ
  have hσ_spec : ∀ k ∈ T, σ k ∈ T ∧ EdgeR keys deps k (σ k) := by
    intro k hkT
    have he := hex k hkT
    have : σ k = he.choose := by rw [hσ]; simp only [dif_pos he]
    rw [this]
    exact he.choose_spec
  set g : Nat → String := fun n => σ^[n] k₀ with hg
  have hgstep : ∀ n, g (n + 1) = σ (g n) := by
    intro n
    rw [hg]
    simp [Function.iterate_succ_apply']
  have hgT : ∀ n, g n ∈ T := by
    intro n
    induction n with
    | zero =>
        have : g 0 = k₀ := by rw [hg]; simp
        rw [this]
        exact (hTmem k₀).mpr ⟨hk₀, hk₀r⟩
    | succ n ihn =>
        rw [hgstep n]
        exact (hσ_spec (g n) ihn).1
  have hgE : ∀ n, EdgeR keys deps (g n) (g (n + 1)) := by
    intro n
    rw [hgstep n]
    exact (hσ_spec (g n) (hgT n)).2
  have cyc : ∀ (i j : Nat), i < j → g i = g j → False := by
    intro i j hij heq
    have hr := reach_g keys deps g hgE (j - i) i
    rw [Nat.add_sub_cancel' (le_of_lt hij)] at hr
    rw [← heq] at hr
    apply hacyc
    refine ⟨g i, j - i - 1, ?_⟩
    have harith : j - i - 1 + 1 = j - i := by omega
    rwa [harith]
  have hmap : ∀ i : Fin (T.card + 1), i ∈ (Finset.univ : Finset (Fin (T.card + 1))) → g i ∈ T :=
    fun i _ => hgT i
  have hcard : T.card < (Finset.univ : Finset (Fin (T.card + 1))).card := by simp
  rcases Finset.exists_ne_map_eq_of_card_lt_of_maps_to hcard hmap with ⟨i, _, j, _, hne, heq⟩
  have hvalne : (i : Nat) ≠ (j : Nat) := fun h => hne (Fin.ext h)
  rcases Nat.lt_or_ge (i : Nat) (j : Nat) with hij | hij
  · exact cyc i j hij heq
  · exact cyc j i (by omega) heq.symm

end ThmSec3

section ThmSec4

variable (infos : List BlockInfo) (deps : Deps)

theorem nodup_length_eq_of_mem_iff (keys r : List String) (hk : keys.Nodup) (hr : r.Nodup)
    (h1 : ∀ k ∈ r, k ∈ keys) (h2 : ∀ k ∈ keys, k ∈ r) : r.length = keys.length := by
  have heq : r.toFinset = keys.toFinset := by
    apply Finset.Subset.antisymm
    · intro x hx
      rw [List.mem_toFinset] at *
      exact h1 x hx
    · intro x hx
      rw [List.mem_toFinset] at *
      exact h2 x hx
  rw [← List.toFinset_card_of_nodup hr, ← List.toFinset_card_of_nodup hk, heq]

/-- Everything the Kahn loop guarantees about a successful `topoSort`. -/
theorem topoSort_ok_spec (hwf : DepsWF deps) (order : List String)
    (h : topoSort infos deps = .ok order) :
    order.Nodup ∧ (∀ k, k ∈ order ↔ k ∈ keysOf infos) ∧
      RespectsDeps (keysOf infos) deps order := by
  have hk := keysOf_nodup infos
  have spec := kahnLoop_spec (keysOf infos) deps hk hwf (keysOf infos).length
    ((keysOf infos).filter (fun k => initInDeg (keysOf infos) deps k == 0)) []
    (initInDeg (keysOf infos) deps) (kahnInv_init (keysOf infos) deps hk)
  rcases spec with ⟨hnd, hsub, hresp, hstuck⟩
  unfold topoSort at h
  simp only at h
  split at h
  · exact absurd h (by simp)
  · rename_i hcond
    have horder : kahnLoop (keysOf infos) deps (keysOf infos).length
        ((keysOf infos).filter (fun k => initInDeg (keysOf infos) deps k == 0)) []
        (initInDeg (keysOf infos) deps) = order := by
      injection h
    rw [horder] at hnd hsub hresp hstuck hcond
    have hlen : order.length = (keysOf infos).length := by
      simpa using hcond
    refine ⟨hnd, fun k => ⟨hsub k, ?_⟩, hresp⟩
    intro hkk
    exact kahn_exhaust (keysOf infos) hk order hnd hsub hlen k hkk

/-- On an acyclic restricted graph, `topoSort` succeeds. -/
theorem topoSort_complete (hwf : DepsWF deps)
    (hacyc : NoCycle (keysOf infos) deps) :
    ∃ order, topoSort infos deps = .ok order := by
  have hk := keysOf_nodup infos
  have spec := kahnLoop_spec (keysOf infos) deps hk hwf (keysOf infos).length
    ((keysOf infos).filter (fun k => initInDeg (keysOf infos) deps k == 0)) []
    (initInDeg (keysOf infos) deps) (kahnInv_init (keysOf infos) deps hk)
  rcases spec with ⟨hnd, hsub, hresp, hstuck⟩
  have hall := kahn_no_stuck (keysOf infos) deps hacyc _ hstuck
  have hlen := nodup_length_eq_of_mem_iff (keysOf infos) _ hk hnd hsub hall
  refine ⟨kahnLoop (keysOf infos) deps (keysOf infos).length
    ((keysOf infos).filter (fun k => initInDeg (keysOf infos) deps k == 0)) []
    (initInDeg (keysOf infos) deps), ?_⟩
  unfold topoSort
  simp only
  rw [if_neg (by simpa using hlen)]

end ThmSec4

theorem mem_take_indexOf_lt {α : Type} [DecidableEq α] :
    ∀ (l : List α) (i : Nat) (a : α), a ∈ l.take i → l.indexOf a < i := by
  intro l
  induction l with
  | nil => intro i a h; simp at h
  | cons x xs ih =>
      intro i a h
      cases i with
      | zero => simp at h
      | succ j =>
          rw [List.take_succ_cons] at h
          rcases List.mem_cons.mp h with h | h
          · subst h; simp [List.indexOf_cons_self]
          · by_cases hxa : a = x
            · subst hxa; simp [List.indexOf_cons_self]
            · rw [List.indexOf_cons_ne _ (fun he => hxa he.symm)]
              exact Nat.succ_lt_succ (ih j a h)

theorem respects_indexOf (keys : List String) (deps : Deps) (order : List String)
    (hnd : order.Nodup) (hresp : RespectsDeps keys deps order)
    (a b : String) (ha : a ∈ order) (hb : b ∈ lookupDeps deps a) (hbk : b ∈ keys) :
    order.indexOf b < order.indexOf a := by
  rcases List.mem_iff_getElem.mp ha with ⟨i, hi, heq⟩
  have hbi : b ∈ restrictedDeps keys deps a := (mem_restrictedDeps keys deps a b).mpr ⟨hb, hbk⟩
  have hmem : b ∈ order.take i := by
    have hh := hresp i hi
    rw [heq] at hh
    exact hh b hbi
  have h1 : order.indexOf b < i := mem_take_indexOf_lt order i b hmem
  have h2 : order.indexOf a = i := by rw [← heq]; exact List.indexOf_getElem hnd i hi
  omega

/-- Claim C1: for a well-formed dependency map that is acyclic on the
catalogued keys, `topoSort` succeeds and its output contains every
catalogued key exactly once, ordered so that every catalogued dependency
comes before its dependent. -/
theorem C1_main (blockInfos : List BlockInfo) (deps : Deps)
    (hwf : DepsWF deps) (hacyc : NoCycle (keysOf blockInfos) deps) :
    ∃ order, topoSort blockInfos deps = Except.ok order ∧
      (∀ k, k ∈ order ↔ k ∈ keysOf blockInfos) ∧
      (∀ k ∈ keysOf blockInfos, order.count k = 1) ∧
      (∀ a b, a ∈ keysOf blockInfos → b ∈ keysOf blockInfos →
        b ∈ lookupDeps deps a → order.indexOf b < order.indexOf a) := by
  rcases topoSort_complete blockInfos deps hwf hacyc with ⟨order, hok⟩
  rcases topoSort_ok_spec blockInfos deps hwf order hok with ⟨hnd, hmem, hresp⟩
  refine ⟨order, hok, hmem, ?_, ?_⟩
  · intro k hkk
    exact List.count_eq_one_of_mem hnd ((hmem k).mpr hkk)
  · intro a b hak hbk hdep
    exact respects_indexOf _ _ order hnd hresp a b ((hmem a).mpr hak) hdep hbk

theorem C1_witness_check :
    DepsWF [("app", ["database"])] ∧
    NoCycle (keysOf [{ typeName := "database" }, { typeName := "app" }])
      [("app", ["database"])] ∧
    ∃ order, topoSort [{ typeName := "database" }, { typeName := "app" }]
        [("app", ["database"])] = Except.ok order ∧
      (∀ k, k ∈ order ↔ k ∈ keysOf [{ typeName := "database" }, { typeName := "app" }]) ∧
      (∀ k ∈ keysOf [{ typeName := "database" }, { typeName := "app" }], order.count k = 1) ∧
      (∀ a b, a ∈ keysOf [{ typeName := "database" }, { typeName := "app" }] →
        b ∈ keysOf [{ typeName := "database" }, { typeName := "app" }] →
        b ∈ lookupDeps [("app", ["database"])] a → order.indexOf b < order.indexOf a) := by
  have hwf : DepsWF [("app", ["database"])] := by
    unfold DepsWF
    decide
  have hacyc : NoCycle (keysOf [{ typeName := "database" }, { typeName := "app" }])
      [("app", ["database"])] := by
    rintro ⟨a, n, b, ⟨hak, hbk, hmem⟩, hrest⟩
    have hkeys : keysOf ([{ typeName := "database" }, { typeName := "app" }] : List BlockInfo)
        = ["database", "app"] := by decide
    rw [hkeys] at hak
    simp only [List.mem_cons, List.not_mem_nil, or_false] at hak
    rcases hak with ha | ha
    · subst ha
      have hl : lookupDeps [("app", ["database"])] "database" = [] := by decide
      rw [hl] at hmem
      simp at hmem
    · subst ha
      have hl : lookupDeps [("app", ["database"])] "app" = ["database"] := by decide
      rw [hl] at hmem
      have hb : b = "database" := by simpa using hmem
      subst hb
      cases n with
      | zero =>
          have heq : ("database" : String) = "app" := hrest
          exact absurd heq (by decide)
      | succ m =>
          rcases hrest with ⟨c, ⟨_, _, hcm⟩, _⟩
          have hl2 : lookupDeps [("app", ["database"])] "database" = [] := by decide
          rw [hl2] at hcm
          simp at hcm
  exact ⟨hwf, hacyc, C1_main _ _ hwf hacyc⟩

theorem lookupDeps_nil (k : String) : lookupDeps [] k = [] := rfl

theorem lookupDeps_eq_of_find? (deps : Deps) (k : String) (e : String × List String)
    (hf : deps.find? (fun e => e.1 == k) = some e) : lookupDeps deps k = e.2 := by
  unfold lookupDeps
  rw [hf]

theorem lookupDeps_eq_nil_of_find? (deps : Deps) (k : String)
    (hf : deps.find? (fun e => e.1 == k) = none) : lookupDeps deps k = [] := by
  unfold lookupDeps
  rw [hf]

theorem find?_map_fst {α : Type} (l : List (String × α)) (g : String × α → String × α)
    (hg : ∀ e, (g e).1 = e.1) (k : String) :
    (l.map g).find? (fun e => e.1 == k) = (l.find? (fun e => e.1 == k)).map g := by
  rw [List.find?_map]
  have hcomp : ((fun (e : String × α) => e.1 == k) ∘ g) = (fun (e : String × α) => e.1 == k) := by
    funext e
    simp [Function.comp, hg e]
  rw [hcomp]

theorem insertEdge_find?_some (deps : Deps) (f t : String) :
    ∃ e, (insertEdge deps f t).find? (fun e => e.1 == f) = some e ∧ e.1 = f ∧
      e.2 = (if t ∈ lookupDeps deps f then lookupDeps deps f else lookupDeps deps f ++ [t]) := by
  unfold insertEdge
  by_cases hany : deps.any (fun e => e.1 == f) = true
  · rw [if_pos hany]
    rcases List.any_eq_true.mp hany with ⟨e0, he0, hp0⟩
    have hsome : ∃ e, deps.find? (fun e => e.1 == f) = some e := by
      cases hf : deps.find? (fun e => e.1 == f) with
      | none =>
          rw [List.find?_eq_none] at hf
          exact absurd hp0 (hf e0 he0)
      | some e => exact ⟨e, rfl⟩
    rcases hsome with ⟨e, hf⟩
    have hp := List.find?_some hf
    have he1 : e.1 = f := by simpa using hp
    have hlk : lookupDeps deps f = e.2 := lookupDeps_eq_of_find? deps f e hf
    refine ⟨(e.1, if e.2.contains t then e.2 else e.2 ++ [t]), ?_, he1, ?_⟩
    · rw [find?_map_fst _ _ (by intro x; split <;> rfl), hf]
      show some (if (e.1 == f) = true then (e.1, if e.2.contains t = true then e.2 else e.2 ++ [t]) else e) = _
      rw [if_pos hp]
    · rw [hlk]
      by_cases ht : t ∈ e.2
      · rw [if_pos (by simpa using ht), if_pos ht]
      · rw [if_neg (by simpa using ht), if_neg ht]
  · rw [if_neg hany]
    have hnone : deps.find? (fun e => e.1 == f) = none := by
      rw [List.find?_eq_none]
      intro e he hp
      exact hany (List.any_eq_true.mpr ⟨e, he, hp⟩)
    have hlk : lookupDeps deps f = [] := lookupDeps_eq_nil_of_find? deps f hnone
    refine ⟨(f, [t]), ?_, rfl, ?_⟩
    · rw [List.find?_append, hnone]
      simp
    · rw [hlk]
      simp

theorem lookupDeps_insertEdge_self (deps : Deps) (f t : String) :
    lookupDeps (insertEdge deps f t) f =
      if t ∈ lookupDeps deps f then lookupDeps deps f else lookupDeps deps f ++ [t] := by
  rcases insertEdge_find?_some deps f t with ⟨e, hf, _, he2⟩
  rw [lookupDeps_eq_of_find? _ f e hf, he2]

theorem lookupDeps_insertEdge_other (deps : Deps) (f t k : String) (hk : k ≠ f) :
    lookupDeps (insertEdge deps f t) k = lookupDeps deps k := by
  unfold insertEdge
  by_cases hany : deps.any (fun e => e.1 == f) = true
  · rw [if_pos hany]
    cases hf : deps.find? (fun e => e.1 == k) with
    | none =>
        rw [lookupDeps_eq_nil_of_find? deps k hf, lookupDeps_eq_nil_of_find?]
        rw [find?_map_fst _ _ (by intro x; split <;> rfl), hf]
        rfl
    | some e =>
        have he1 : e.1 = k := by simpa using List.find?_some hf
        have hfm : (deps.map (fun e =>
            if e.1 == f then (e.1, if e.2.contains t then e.2 else e.2 ++ [t]) else e)).find?
              (fun e => e.1 == k) = some e := by
          rw [find?_map_fst _ _ (by intro x; split <;> rfl), hf]
          show some (if (e.1 == f) = true
              then (e.1, if e.2.contains t = true then e.2 else e.2 ++ [t]) else e) = some e
          rw [if_neg (by simp [he1, hk])]
        rw [lookupDeps_eq_of_find? _ k e hfm, lookupDeps_eq_of_find? deps k e hf]
  · rw [if_neg hany]
    have hfk : (f == k) = false := by
      simp
      exact fun h => hk h.symm
    cases hf : deps.find? (fun e => e.1 == k) with
    | none =>
        rw [lookupDeps_eq_nil_of_find? deps k hf, lookupDeps_eq_nil_of_find?]
        rw [List.find?_append, hf]
        simp [List.find?_cons, hfk]
    | some e =>
        rw [lookupDeps_eq_of_find? deps k e hf, lookupDeps_eq_of_find? _ k e]
        rw [List.find?_append, hf]
        rfl

theorem lookupDeps_ensureEntry (deps : Deps) (k0 k : String) :
    lookupDeps (ensureEntry deps k0) k = lookupDeps deps k := by
  unfold ensureEntry
  by_cases hany : deps.any (fun e => e.1 == k0) = true
  · rw [if_pos hany]
  · rw [if_neg hany]
    have hnone : deps.find? (fun e => e.1 == k0) = none := by
      rw [List.find?_eq_none]
      intro e he hp
      exact hany (List.any_eq_true.mpr ⟨e, he, hp⟩)
    cases hf : deps.find? (fun e => e.1 == k) with
    | none =>
        rw [lookupDeps_eq_nil_of_find? deps k hf]
        by_cases hkk : k = k0
        · subst hkk
          rw [lookupDeps_eq_of_find? _ k (k, ([] : List String))]
          rw [List.find?_append, hf]
          simp
        · rw [lookupDeps_eq_nil_of_find?]
          rw [List.find?_append, hf]
          have : (k0 == k) = false := by
            simp
            exact fun h => hkk h.symm
          simp [List.find?_cons, this]
    | some e =>
        rw [lookupDeps_eq_of_find? deps k e hf, lookupDeps_eq_of_find? _ k e]
        rw [List.find?_append, hf]
        rfl

theorem mem_lookupDeps_insertEdge (deps : Deps) (f t k x : String) :
    x ∈ lookupDeps (insertEdge deps f t) k ↔ x ∈ lookupDeps deps k ∨ (k = f ∧ x = t) := by
  by_cases hk : k = f
  · subst hk
    rw [lookupDeps_insertEdge_self]
    by_cases ht : t ∈ lookupDeps deps k
    · rw [if_pos ht]
      constructor
      · exact fun h => Or.inl h
      · rintro (h | ⟨-, h⟩)
        · exact h
        · exact h ▸ ht
    · rw [if_neg ht]
      simp only [List.mem_append, List.mem_singleton]
      constructor
      · rintro (h | h)
        · exact Or.inl h
        · exact Or.inr ⟨by simp, h⟩
      · rintro (h | ⟨-, h⟩)
        · exact Or.inl h
        · exact Or.inr h
  · rw [lookupDeps_insertEdge_other deps f t k hk]
    constructor
    · exact fun h => Or.inl h
    · rintro (h | ⟨h, -⟩)
      · exact h
      · exact absurd h hk

theorem addDependency_of_unknown (deps : Deps) (fromKey : String) (trav : Traversal)
    (knownTypes : List String) (bis : List BlockInfo)
    (h : ¬ trav.root ∈ knownTypes) :
    addDependency deps fromKey trav knownTypes bis = deps := by
  unfold addDependency
  rw [if_pos (by simpa using h)]

theorem addDependency_of_self (deps : Deps) (fromKey : String) (trav : Traversal)
    (knownTypes : List String) (bis : List BlockInfo)
    (h : resolveTarget trav bis = fromKey) :
    addDependency deps fromKey trav knownTypes bis = deps := by
  unfold addDependency
  by_cases hkt : trav.root ∈ knownTypes
  · rw [if_neg (by simpa using hkt)]
    simp only [h]
    simp
  · rw [if_pos (by simpa using hkt)]

theorem addDependency_of_edge (deps : Deps) (fromKey : String) (trav : Traversal)
    (knownTypes : List String) (bis : List BlockInfo)
    (hkt : trav.root ∈ knownTypes) (hne : resolveTarget trav bis ≠ fromKey) :
    addDependency deps fromKey trav knownTypes bis
      = insertEdge deps fromKey (resolveTarget trav bis) := by
  unfold addDependency
  rw [if_neg (by simpa using hkt)]
  simp only
  rw [if_pos (by simpa using hne)]

theorem mem_lookupDeps_addDependency (deps : Deps) (fromKey : String) (trav : Traversal)
    (knownTypes : List String) (bis : List BlockInfo) (k x : String) :
    x ∈ lookupDeps (addDependency deps fromKey trav knownTypes bis) k ↔
      x ∈ lookupDeps deps k ∨
        (trav.root ∈ knownTypes ∧ resolveTarget trav bis ≠ fromKey ∧
          k = fromKey ∧ x = resolveTarget trav bis) := by
  by_cases hkt : trav.root ∈ knownTypes
  · by_cases hne : resolveTarget trav bis = fromKey
    · rw [addDependency_of_self deps fromKey trav knownTypes bis hne]
      constructor
      · exact fun h => Or.inl h
      · rintro (h | ⟨-, hn, -, -⟩)
        · exact h
        · exact absurd hne hn
    · rw [addDependency_of_edge deps fromKey trav knownTypes bis hkt hne,
        mem_lookupDeps_insertEdge]
      constructor
      · rintro (h | ⟨h1, h2⟩)
        · exact Or.inl h
        · exact Or.inr ⟨hkt, hne, h1, h2⟩
      · rintro (h | ⟨-, -, h1, h2⟩)
        · exact Or.inl h
        · exact Or.inr ⟨h1, h2⟩
  · rw [addDependency_of_unknown deps fromKey trav knownTypes bis hkt]
    constructor
    · exact fun h => Or.inl h
    · rintro (h | ⟨h, -⟩)
      · exact h
      · exact absurd h hkt

theorem attrs_fold_append (key : String) (kt : List String) (bis : List BlockInfo) :
    ∀ (ts1 ts2 : List Traversal) (d : Deps),
      (ts1 ++ ts2).foldl (fun d t => addDependency d key t kt bis) d
        = ts2.foldl (fun d t => addDependency d key t kt bis)
            (ts1.foldl (fun d t => addDependency d key t kt bis) d) := by
  intro ts1 ts2 d
  rw [List.foldl_append]

mutual

theorem extractNested_eq_foldl (key : String) (kt : List String) (bis : List BlockInfo) :
    ∀ (d : Deps) (l : List (String × Body)),
    extractNestedBlockDeps key kt bis d l
      = (nestedTravs l).foldl (fun d t => addDependency d key t kt bis) d
  | d, [] => by
      rw [extractNestedBlockDeps, nestedTravs]
      rfl
  | d, (nm, b) :: rest => by
      rw [extractNestedBlockDeps, nestedTravs, List.foldl_append,
        ← nestedBody_eq_foldl key kt bis d b,
        ← extractNested_eq_foldl key kt bis (nestedBodyDeps key kt bis d b) rest]

theorem nestedBody_eq_foldl (key : String) (kt : List String) (bis : List BlockInfo) :
    ∀ (d : Deps) (b : Body),
    nestedBodyDeps key kt bis d b
      = (bodyTravs b).foldl (fun d t => addDependency d key t kt bis) d
  | d, .mk attrs children => by
      rw [nestedBodyDeps, bodyTravs, List.foldl_append,
        ← extractNested_eq_foldl key kt bis _ children]
      congr 1
      have hgen : ∀ (al : List BAttr) (acc : List Traversal) (d0 : Deps),
          al.foldl (fun d a => (exprVars a.expr).foldl
            (fun d t => addDependency d key t kt bis) d) 
            (acc.foldl (fun d t => addDependency d key t kt bis) d0)
          = (al.foldl (fun acc a => acc ++ exprVars a.expr) acc).foldl
              (fun d t => addDependency d key t kt bis) d0 := by
        intro al
        induction al with
        | nil => intro acc d0; rfl
        | cons a as iha =>
            intro acc d0
            simp only [List.foldl_cons]
            rw [← iha (acc ++ exprVars a.expr) d0, List.foldl_append]
      have h0 := hgen attrs [] d
      simpa using h0

end

theorem mem_foldl_addDep (key : String) (kt : List String) (bis : List BlockInfo) :
    ∀ (ts : List Traversal) (d : Deps) (k x : String),
    x ∈ lookupDeps (ts.foldl (fun d t => addDependency d key t kt bis) d) k ↔
      x ∈ lookupDeps d k ∨
        (k = key ∧ ∃ t ∈ ts, t.root ∈ kt ∧ resolveTarget t bis = x ∧ x ≠ key) := by
  intro ts
  induction ts with
  | nil =>
      intro d k x
      simp
  | cons t ts ih =>
      intro d k x
      rw [List.foldl_cons, ih, mem_lookupDeps_addDependency]
      constructor
      · rintro ((h | ⟨h1, h2, h3, h4⟩) | ⟨hk, t', ht', h1, h2, h3⟩)
        · exact Or.inl h
        · exact Or.inr ⟨h3, t, List.mem_cons_self _ _, h1, h4.symm, h4 ▸ h2⟩
        · exact Or.inr ⟨hk, t', List.mem_cons_of_mem _ ht', h1, h2, h3⟩
      · rintro (h | ⟨hk, t', ht', h1, h2, h3⟩)
        · exact Or.inl (Or.inl h)
        · rcases List.mem_cons.mp ht' with he | he
          · subst he
            exact Or.inl (Or.inr ⟨h1, h2 ▸ h3, hk, h2.symm⟩)
          · exact Or.inr ⟨hk, t', he, h1, h2, h3⟩

theorem attrsFoldGen (key : String) (kt : List String) (bis : List BlockInfo) :
    ∀ (al : List BAttr) (acc : List Traversal) (d0 : Deps),
    al.foldl (fun d a => (exprVars a.expr).foldl
        (fun d t => addDependency d key t kt bis) d)
        (acc.foldl (fun d t => addDependency d key t kt bis) d0)
      = (al.foldl (fun acc a => acc ++ exprVars a.expr) acc).foldl
          (fun d t => addDependency d key t kt bis) d0 := by
  intro al
  induction al with
  | nil => intro acc d0; rfl
  | cons a as iha =>
      intro acc d0
      simp only [List.foldl_cons]
      rw [← iha (acc ++ exprVars a.expr) d0, List.foldl_append]

theorem blockStep_eq (kt : List String) (bis : List BlockInfo)
    (p : BlockInfo × Body) (d : Deps) :
    extractNestedBlockDeps p.1.key kt bis
      (p.2.attrs.foldl (fun d a => (exprVars a.expr).foldl
        (fun d t => addDependency d p.1.key t kt bis) d) (ensureEntry d p.1.key))
      p.2.children
      = (blockTravs p.2).foldl (fun d t => addDependency d p.1.key t kt bis)
          (ensureEntry d p.1.key) := by
  rw [extractNested_eq_foldl, blockTravs, List.foldl_append]
  congr 1
  have h0 := attrsFoldGen p.1.key kt bis p.2.attrs [] (ensureEntry d p.1.key)
  simpa using h0

theorem mem_blocksFold (kt : List String) (bis : List BlockInfo) :
    ∀ (blocks : List (BlockInfo × Body)) (d : Deps) (k x : String),
    x ∈ lookupDeps (blocks.foldl (fun d p =>
        let key := p.1.key
        let d := ensureEntry d key
        let d := p.2.attrs.foldl (fun d a => (exprVars a.expr).foldl
          (fun d t => addDependency d key t kt bis) d) d
        extractNestedBlockDeps key kt bis d p.2.children) d) k ↔
      x ∈ lookupDeps d k ∨ ∃ p ∈ blocks, p.1.key = k ∧ ∃ t ∈ blockTravs p.2,
        t.root ∈ kt ∧ resolveTarget t bis = x ∧ x ≠ k := by
  intro blocks
  induction blocks with
  | nil =>
      intro d k x
      simp
  | cons p ps ih =>
      intro d k x
      rw [List.foldl_cons]
      simp only
      rw [blockStep_eq kt bis p d, ih, mem_foldl_addDep]
      rw [lookupDeps_ensureEntry]
      constructor
      · rintro ((h | ⟨hk, t, ht, h1, h2, h3⟩) | ⟨q, hq, hqk, t, ht, h1, h2, h3⟩)
        · exact Or.inl h
        · exact Or.inr ⟨p, List.mem_cons_self _ _, hk.symm, t, ht, h1, h2, hk ▸ h3⟩
        · exact Or.inr ⟨q, List.mem_cons_of_mem _ hq, hqk, t, ht, h1, h2, h3⟩
      · rintro (h | ⟨q, hq, hqk, t, ht, h1, h2, h3⟩)
        · exact Or.inl (Or.inl h)
        · rcases List.mem_cons.mp hq with he | he
          · subst he
            exact Or.inl (Or.inr ⟨hqk.symm, t, ht, h1, h2, hqk ▸ h3⟩)
          · exact Or.inr ⟨q, he, hqk, t, ht, h1, h2, h3⟩

theorem mem_attrsFold (kt : List String) (bis : List BlockInfo) :
    ∀ (attrs : List BAttr) (d : Deps) (k x : String),
    x ∈ lookupDeps (attrs.foldl (fun d a =>
        let d := ensureEntry d a.name
        (exprVars a.expr).foldl (fun d t => addDependency d a.name t kt bis) d) d) k ↔
      x ∈ lookupDeps d k ∨ ∃ a ∈ attrs, a.name = k ∧ ∃ t ∈ exprVars a.expr,
        t.root ∈ kt ∧ resolveTarget t bis = x ∧ x ≠ k := by
  intro attrs
  induction attrs with
  | nil =>
      intro d k x
      simp
  | cons a as ih =>
      intro d k x
      rw [List.foldl_cons]
      simp only
      rw [ih, mem_foldl_addDep, lookupDeps_ensureEntry]
      constructor
      · rintro ((h | ⟨hk, t, ht, h1, h2, h3⟩) | ⟨b, hb, hbk, t, ht, h1, h2, h3⟩)
        · exact Or.inl h
        · exact Or.inr ⟨a, List.mem_cons_self _ _, hk.symm, t, ht, h1, h2, hk ▸ h3⟩
        · exact Or.inr ⟨b, List.mem_cons_of_mem _ hb, hbk, t, ht, h1, h2, h3⟩
      · rintro (h | ⟨b, hb, hbk, t, ht, h1, h2, h3⟩)
        · exact Or.inl (Or.inl h)
        · rcases List.mem_cons.mp hb with he | he
          · subst he
            exact Or.inl (Or.inr ⟨hbk.symm, t, ht, h1, h2, hbk ▸ h3⟩)
          · exact Or.inr ⟨b, he, hbk, t, ht, h1, h2, h3⟩

/-- The full membership characterization of the dependency graph: an edge
`k → x` is recorded exactly when some block catalogued with key `k` (or
attribute named `k`) contains a traversal with a known root that resolves to
target `x`, and `x ≠ k`. -/
theorem mem_buildDependencyGraph (blocks : List (BlockInfo × Body)) (attrs : List BAttr)
    (k x : String) :
    x ∈ lookupDeps (buildDependencyGraph blocks attrs) k ↔
      (∃ p ∈ blocks, p.1.key = k ∧ ∃ t ∈ blockTravs p.2,
        t.root ∈ knownTypesOf blocks attrs ∧
        resolveTarget t (allInfosOf blocks attrs) = x ∧ x ≠ k) ∨
      (∃ a ∈ attrs, a.name = k ∧ ∃ t ∈ exprVars a.expr,
        t.root ∈ knownTypesOf blocks attrs ∧
        resolveTarget t (allInfosOf blocks attrs) = x ∧ x ≠ k) := by
  unfold buildDependencyGraph
  rw [mem_attrsFold, mem_blocksFold]
  have hnil : lookupDeps ([] : Deps) k = [] := rfl
  rw [hnil]
  simp only [List.not_mem_nil, false_or]

theorem insertEdge_entry_has (d : Deps) (f t : String) :
    ∀ e ∈ insertEdge d f t, e.1 = f → t ∈ e.2 := by
  intro e he hef
  unfold insertEdge at he
  by_cases hany : d.any (fun e => e.1 == f) = true
  · rw [if_pos hany] at he
    rcases List.mem_map.mp he with ⟨e0, he0, hge⟩
    by_cases h0 : e0.1 = f
    · rw [if_pos (by simpa using h0)] at hge
      rw [← hge]
      by_cases ht : e0.2.contains t = true
      · rw [if_pos ht]
        simpa using ht
      · rw [if_neg ht]
        simp
    · rw [if_neg (by simpa using h0)] at hge
      rw [← hge] at hef
      exact absurd hef h0
  · rw [if_neg hany] at he
    rcases List.mem_append.mp he with h | h
    · exact absurd (List.any_eq_true.mpr ⟨e, h, by simpa using hef⟩) hany
    · rw [List.mem_singleton] at h
      rw [h]
      simp

theorem map_eq_self_of_fixed {α : Type} (g : α → α) :
    ∀ (l : List α), (∀ e ∈ l, g e = e) → l.map g = l := by
  intro l
  induction l with
  | nil => intro _; rfl
  | cons x xs ih =>
      intro h
      rw [List.map_cons, h x (List.mem_cons_self _ _), ih (fun e he => h e (List.mem_cons_of_mem _ he))]

theorem insertEdge_idem (d : Deps) (f t : String) :
    insertEdge (insertEdge d f t) f t = insertEdge d f t := by
  have hhas := insertEdge_entry_has d f t
  rcases insertEdge_find?_some d f t with ⟨e0, hf0, he01, -⟩
  have hany : (insertEdge d f t).any (fun e => e.1 == f) = true :=
    List.any_eq_true.mpr ⟨e0, List.mem_of_find?_eq_some hf0, by simpa using he01⟩
  show (if (insertEdge d f t).any (fun e => e.1 == f) then _ else _) = _
  rw [if_pos hany]
  apply map_eq_self_of_fixed
  intro e he
  by_cases hef : e.1 = f
  · rw [if_pos (by simpa using hef)]
    have ht := hhas e he hef
    rw [if_pos (by simpa using ht)]
  · rw [if_neg (by simpa using hef)]

theorem addDependency_idem (deps : Deps) (fromKey : String) (trav : Traversal)
    (knownTypes : List String) (bis : List BlockInfo) :
    addDependency (addDependency deps fromKey trav knownTypes bis) fromKey trav knownTypes bis
      = addDependency deps fromKey trav knownTypes bis := by
  by_cases hkt : trav.root ∈ knownTypes
  · by_cases hne : resolveTarget trav bis = fromKey
    · rw [addDependency_of_self _ _ _ _ _ hne, addDependency_of_self _ _ _ _ _ hne]
    · rw [addDependency_of_edge _ _ _ _ _ hkt hne, addDependency_of_edge _ _ _ _ _ hkt hne,
        insertEdge_idem]
  · rw [addDependency_of_unknown _ _ _ _ _ hkt, addDependency_of_unknown _ _ _ _ _ hkt]

theorem resolveTarget_attr_eq (root name : String) (rest : List Seg) (bis : List BlockInfo) :
    resolveTarget ⟨root, .attr name :: rest⟩ bis =
      (match bis.find? (fun bi => bi.typeName == root && bi.label == name) with
        | some bi => bi.key
        | none => root) := rfl

theorem resolveTarget_cases (trav : Traversal) (bis : List BlockInfo) :
    resolveTarget trav bis = trav.root ∨ ∃ bi ∈ bis, resolveTarget trav bis = bi.key := by
  obtain ⟨root, segs⟩ := trav
  cases segs with
  | nil => exact Or.inl rfl
  | cons s rest =>
      cases s with
      | index i => exact Or.inl rfl
      | attr name =>
          rw [resolveTarget_attr_eq]
          cases hf : bis.find? (fun bi => bi.typeName == root && bi.label == name) with
          | none => exact Or.inl rfl
          | some bi => exact Or.inr ⟨bi, List.mem_of_find?_eq_some hf, rfl⟩

theorem resolveTarget_attr_label (T l1 : String) (rest : List Seg) (bis : List BlockInfo)
    (hex : ∃ bi ∈ bis, bi.typeName = T ∧ bi.label = l1) (hl1 : l1 ≠ "") :
    resolveTarget ⟨T, .attr l1 :: rest⟩ bis = T ++ "." ++ l1 := by
  rw [resolveTarget_attr_eq]
  cases hf : bis.find? (fun bi => bi.typeName == T && bi.label == l1) with
  | none =>
      rw [List.find?_eq_none] at hf
      rcases hex with ⟨bi, hm, h1, h2⟩
      exact absurd (by simp [h1, h2] : (bi.typeName == T && bi.label == l1) = true)
        (by simpa using hf bi hm)
  | some bi =>
      have hp := List.find?_some hf
      have h1 : bi.typeName = T := by
        have h := (Bool.and_eq_true _ _).mp hp
        simpa using h.1
      have h2 : bi.label = l1 := by
        have h := (Bool.and_eq_true _ _).mp hp
        simpa using h.2
      show (if bi.label != "" then bi.typeName ++ "." ++ bi.label else bi.typeName)
        = T ++ "." ++ l1
      rw [if_pos (by simp [h2, hl1]), h1, h2]

theorem string_label_inj (T l1 l2 : String) (h : T ++ "." ++ l1 = T ++ "." ++ l2) :
    l1 = l2 := by
  have hd : (T ++ "." ++ l1).data = (T ++ "." ++ l2).data := by rw [h]
  simp only [String.data_append] at hd
  have := List.append_cancel_left hd
  exact String.ext this

/-- Claim C4: with two labeled instances of the same type and distinct
labels catalogued, a reference rooted at the type name whose second path
segment is a plain attribute access equal to one instance's label resolves
to that instance's key only; the dependency edge (if any) targets exactly
`type_name.label`, never the other instance, and path segments beyond the
second (`rest`) do not influence the resolution. -/
theorem C4_labeled_disambiguation
    (bis : List BlockInfo) (kt : List String) (T l1 l2 : String) (rest : List Seg)
    (deps : Deps) (fromKey : String)
    (h1 : ∃ bi ∈ bis, bi.typeName = T ∧ bi.label = l1)
    (h2 : ∃ bi ∈ bis, bi.typeName = T ∧ bi.label = l2)
    (hl1 : l1 ≠ "") (hl2 : l2 ≠ "") (hll : l1 ≠ l2) (hkt : T ∈ kt) :
    resolveTarget ⟨T, .attr l1 :: rest⟩ bis = T ++ "." ++ l1 ∧
    addDependency deps fromKey ⟨T, .attr l1 :: rest⟩ kt bis
      = (if T ++ "." ++ l1 = fromKey then deps
         else insertEdge deps fromKey (T ++ "." ++ l1)) ∧
    (∀ x, x ∈ lookupDeps (addDependency deps fromKey ⟨T, .attr l1 :: rest⟩ kt bis) fromKey →
      x ∈ lookupDeps deps fromKey ∨ x = T ++ "." ++ l1) ∧
    (T ++ "." ++ l2 ∉ lookupDeps deps fromKey →
      T ++ "." ++ l2 ∉ lookupDeps
        (addDependency deps fromKey ⟨T, .attr l1 :: rest⟩ kt bis) fromKey) := by
  have hrt := resolveTarget_attr_label T l1 rest bis h1 hl1
  have hmain : addDependency deps fromKey ⟨T, .attr l1 :: rest⟩ kt bis
      = (if T ++ "." ++ l1 = fromKey then deps
         else insertEdge deps fromKey (T ++ "." ++ l1)) := by
    by_cases heq : T ++ "." ++ l1 = fromKey
    · rw [if_pos heq]
      exact addDependency_of_self _ _ _ _ _ (hrt.trans heq)
    · rw [if_neg heq]
      rw [addDependency_of_edge _ _ _ _ _ hkt (by rw [hrt]; exact heq), hrt]
  have honly : ∀ x, x ∈ lookupDeps (addDependency deps fromKey ⟨T, .attr l1 :: rest⟩ kt bis)
      fromKey → x ∈ lookupDeps deps fromKey ∨ x = T ++ "." ++ l1 := by
    intro x hx
    rw [mem_lookupDeps_addDependency] at hx
    rcases hx with h | ⟨-, -, -, h⟩
    · exact Or.inl h
    · exact Or.inr (h.trans hrt)
  refine ⟨hrt, hmain, honly, ?_⟩
  intro hnot hmem
  rcases honly _ hmem with h | h
  · exact hnot h
  · exact hll (string_label_inj T l2 l1 h).symm

/-- Witness for C4: the `service.api`/`service.web` catalog; the reference
`service.api.port` from `app` records exactly the edge to `service.api`. -/
theorem C4_labeled_disambiguation_witness :
    resolveTarget ⟨"service", [.attr "api", .attr "port"]⟩
        [{ typeName := "service", label := "api" }, { typeName := "service", label := "web" }]
      = "service.api" ∧
    addDependency [] "app" ⟨"service", [.attr "api", .attr "port"]⟩ ["service"]
        [{ typeName := "service", label := "api" }, { typeName := "service", label := "web" }]
      = (if "service.api" = "app" then []
         else insertEdge [] "app" "service.api") ∧
    (∀ x, x ∈ lookupDeps (addDependency [] "app" ⟨"service", [.attr "api", .attr "port"]⟩
        ["service"]
        [{ typeName := "service", label := "api" }, { typeName := "service", label := "web" }])
        "app" →
      x ∈ lookupDeps [] "app" ∨ x = "service.api") ∧
    ("service.web" ∉ lookupDeps [] "app" →
      "service.web" ∉ lookupDeps (addDependency [] "app"
        ⟨"service", [.attr "api", .attr "port"]⟩ ["service"]
        [{ typeName := "service", label := "api" }, { typeName := "service", label := "web" }])
        "app") := by
  have h := C4_labeled_disambiguation
    [{ typeName := "service", label := "api" }, { typeName := "service", label := "web" }]
    ["service"] "service" "api" "web" [.attr "port"] [] "app"
    (by decide) (by decide) (by decide) (by decide) (by decide) (by decide)
  simpa using h

/-- Claim C6: a reference resolving to the entity's own key records no
edge; the built graph never lists a key in its own dependency set; and
recording the same edge twice leaves the graph unchanged. -/
theorem C6_self_reference_noop :
    (∀ (deps : Deps) (fromKey : String) (trav : Traversal) (kt : List String)
        (bis : List BlockInfo), resolveTarget trav bis = fromKey →
        addDependency deps fromKey trav kt bis = deps) ∧
    (∀ (blocks : List (BlockInfo × Body)) (attrs : List BAttr) (k : String),
        k ∉ lookupDeps (buildDependencyGraph blocks attrs) k) ∧
    (∀ (deps : Deps) (fromKey : String) (trav : Traversal) (kt : List String)
        (bis : List BlockInfo),
        addDependency (addDependency deps fromKey trav kt bis) fromKey trav kt bis
          = addDependency deps fromKey trav kt bis) := by
  refine ⟨?_, ?_, ?_⟩
  · intro deps fromKey trav kt bis h
    exact addDependency_of_self deps fromKey trav kt bis h
  · intro blocks attrs k hmem
    rw [mem_buildDependencyGraph] at hmem
    rcases hmem with ⟨-, -, -, -, -, -, -, h⟩ | ⟨-, -, -, -, -, -, -, h⟩ <;> exact h rfl
  · intro deps fromKey trav kt bis
    exact addDependency_idem deps fromKey trav kt bis

/-- Witness for C6: a block `app` whose attribute references `app` itself
yields no self-edge, and inserting the `app → database` edge twice equals
inserting it once. -/
theorem C6_self_reference_noop_witness :
    addDependency [("app", ["database"])] "app" ⟨"app", [.attr "x"]⟩ ["app"]
        [{ typeName := "app" }] = [("app", ["database"])] ∧
    "app" ∉ lookupDeps (buildDependencyGraph
        [({ typeName := "app" }, .mk [⟨"x", .tref ⟨"app", [.attr "x"]⟩, ⟨"f.hcl", 2⟩⟩] [])] [])
        "app" ∧
    addDependency (addDependency [] "app" ⟨"database", []⟩ ["database", "app"]
        [{ typeName := "database" }, { typeName := "app" }]) "app" ⟨"database", []⟩
        ["database", "app"] [{ typeName := "database" }, { typeName := "app" }]
      = addDependency [] "app" ⟨"database", []⟩ ["database", "app"]
          [{ typeName := "database" }, { typeName := "app" }] := by
  refine ⟨?_, ?_, ?_⟩
  · exact C6_self_reference_noop.1 [("app", ["database"])] "app" ⟨"app", [.attr "x"]⟩
      ["app"] [{ typeName := "app" }] (by decide)
  · exact C6_self_reference_noop.2.1
      [({ typeName := "app" }, .mk [⟨"x", .tref ⟨"app", [.attr "x"]⟩, ⟨"f.hcl", 2⟩⟩] [])] [] "app"
  · exact C6_self_reference_noop.2.2 [] "app" ⟨"database", []⟩ ["database", "app"]
      [{ typeName := "database" }, { typeName := "app" }]

/-- Counterexample to claim C5 as stated: with only labeled `service`
instances catalogued, the reference `service.port` from `app` records an
edge whose target is the bare root `"service"`, which is not a catalogued
entity key. -/
theorem C5_counterexample_bare_root :
    "service" ∈ lookupDeps (buildDependencyGraph
      [({ typeName := "service", label := "api" }, .mk [] []),
       ({ typeName := "service", label := "web" }, .mk [] []),
       ({ typeName := "app" }, .mk [⟨"x", .tref ⟨"service", [.attr "port"]⟩, ⟨"f.hcl", 5⟩⟩] [])]
      []) "app" ∧
    "service" ∉ keysOf (allInfosOf
      [({ typeName := "service", label := "api" }, .mk [] []),
       ({ typeName := "service", label := "web" }, .mk [] []),
       ({ typeName := "app" }, .mk [⟨"x", .tref ⟨"service", [.attr "port"]⟩, ⟨"f.hcl", 5⟩⟩] [])]
      []) := by
  constructor
  · decide
  · decide

/-- Claim C5 (amended): every recorded edge targets either a catalogued
entity key or a bare known root name (the latter arises when the root has
only labeled instances and the second path segment matches no label). -/
theorem C5_edge_targets_catalog_or_root
    (blocks : List (BlockInfo × Body)) (attrs : List BAttr) (k x : String)
    (h : x ∈ lookupDeps (buildDependencyGraph blocks attrs) k) :
    x ∈ keysOf (allInfosOf blocks attrs) ∨ x ∈ knownTypesOf blocks attrs := by
  rw [mem_buildDependencyGraph] at h
  rcases h with ⟨p, hp, -, t, -, hroot, hres, -⟩ | ⟨a, ha, -, t, -, hroot, hres, -⟩ <;>
  · rcases resolveTarget_cases t (allInfosOf blocks attrs) with hc | ⟨bi, hbi, hc⟩
    · right
      rw [← hres, hc]
      exact hroot
    · left
      rw [keysOf_mem]
      exact ⟨bi, hbi, by rw [← hres, hc]⟩

/-- Witness for the amended C5 on the counterexample document: the bare
target `"service"` is indeed a known root name. -/
theorem C5_edge_targets_witness :
    "service" ∈ keysOf (allInfosOf
      [({ typeName := "service", label := "api" }, .mk [] []),
       ({ typeName := "service", label := "web" }, .mk [] []),
       ({ typeName := "app" }, .mk [⟨"x", .tref ⟨"service", [.attr "port"]⟩, ⟨"f.hcl", 5⟩⟩] [])]
      []) ∨
    "service" ∈ knownTypesOf
      [({ typeName := "service", label := "api" }, .mk [] []),
       ({ typeName := "service", label := "web" }, .mk [] []),
       ({ typeName := "app" }, .mk [⟨"x", .tref ⟨"service", [.attr "port"]⟩, ⟨"f.hcl", 5⟩⟩] [])]
      [] :=
  C5_edge_targets_catalog_or_root _ _ "app" "service" (by decide)

/-- Claim C3 (code bug): on the two-cycle `alpha` depends on `beta`, `beta`
depends on `alpha`, `topoSort` does fail with a `CycleError` whose path has
length at least 2 — but the reported path is `["beta", "alpha", "alpha"]`:
its first and last elements differ, so it is not the closed loop
(`a -> b -> a`) that the specification and the claim require.  The slip is
in `findCycle`'s reconstruction: the back-edge target `dep` is placed at the
front of the walk list before the reversal, so after reversing it sits at
the end, and the final `append dep` duplicates it instead of closing the
loop. -/
theorem C3_cycle_report_not_closed :
    topoSort [{ typeName := "alpha" }, { typeName := "beta" }]
        [("alpha", ["beta"]), ("beta", ["alpha"])]
      = Except.error ⟨["beta", "alpha", "alpha"]⟩ ∧
    (["beta", "alpha", "alpha"] : List String).length ≥ 2 ∧
    (["beta", "alpha", "alpha"] : List String).head? ≠
      (["beta", "alpha", "alpha"] : List String).getLast? := by
  refine ⟨?_, by decide, by decide⟩
  rfl

/-- Claim C9: in strict mode an unset variable fails with an error naming
the variable; in lenient mode the same lookup yields the empty string; a set
variable yields its value in either mode; and `env_or` never fails,
returning the fallback exactly when the variable is unset. -/
theorem C9_env_lookup_modes (lookupEnv : String → Option String) (name fallback : String) :
    (lookupEnv name = none →
      envFunction true lookupEnv name
        = .error ("environment variable \"" ++ name ++ "\" is not set")) ∧
    (∃ pre post, ("environment variable \"" ++ name ++ "\" is not set")
        = pre ++ name ++ post) ∧
    (lookupEnv name = none → envFunction false lookupEnv name = .ok "") ∧
    (∀ v, lookupEnv name = some v → ∀ strict, envFunction strict lookupEnv name = .ok v) ∧
    (lookupEnv name = none → envOrFunction lookupEnv name fallback = .ok fallback) ∧
    (∀ v, lookupEnv name = some v → envOrFunction lookupEnv name fallback = .ok v) ∧
    (∃ r, envOrFunction lookupEnv name fallback = .ok r) := by
  refine ⟨?_, ⟨"environment variable \"", "\" is not set", rfl⟩, ?_, ?_, ?_, ?_, ?_⟩
  · intro h
    unfold envFunction
    rw [h]
    rfl
  · intro h
    unfold envFunction
    rw [h]
    rfl
  · intro v h strict
    unfold envFunction
    rw [h]
  · intro h
    unfold envOrFunction
    rw [h]
  · intro v h
    unfold envOrFunction
    rw [h]
  · unfold envOrFunction
    cases lookupEnv name with
    | none => exact ⟨fallback, rfl⟩
    | some v => exact ⟨v, rfl⟩

/-- Witness for C9 at a concrete environment in which `HOME` is set and
`APP_ENV` is not. -/
theorem C9_env_lookup_modes_witness :
    ((fun n => if n = "HOME" then some "/root" else none) "APP_ENV" = none →
      envFunction true (fun n => if n = "HOME" then some "/root" else none) "APP_ENV"
        = .error ("environment variable \"" ++ "APP_ENV" ++ "\" is not set")) ∧
    (∃ pre post, ("environment variable \"" ++ "APP_ENV" ++ "\" is not set")
        = pre ++ "APP_ENV" ++ post) ∧
    ((fun n => if n = "HOME" then some "/root" else none) "APP_ENV" = none →
      envFunction false (fun n => if n = "HOME" then some "/root" else none) "APP_ENV" = .ok "") ∧
    (∀ v, (fun n => if n = "HOME" then some "/root" else none) "APP_ENV" = some v →
      ∀ strict, envFunction strict (fun n => if n = "HOME" then some "/root" else none) "APP_ENV"
        = .ok v) ∧
    ((fun n => if n = "HOME" then some "/root" else none) "APP_ENV" = none →
      envOrFunction (fun n => if n = "HOME" then some "/root" else none) "APP_ENV" "dev"
        = .ok "dev") ∧
    (∀ v, (fun n => if n = "HOME" then some "/root" else none) "APP_ENV" = some v →
      envOrFunction (fun n => if n = "HOME" then some "/root" else none) "APP_ENV" "dev"
        = .ok v) ∧
    (∃ r, envOrFunction (fun n => if n = "HOME" then some "/root" else none) "APP_ENV" "dev"
        = .ok r) :=
  C9_env_lookup_modes (fun n => if n = "HOME" then some "/root" else none) "APP_ENV" "dev"

theorem leadsWith_iff (pat : List Char) :
    ∀ s, leadsWith pat s = true ↔ ∃ post, s = pat ++ post := by
  induction pat with
  | nil =>
      intro s
      simp [leadsWith]
  | cons a as ih =>
      intro s
      cases s with
      | nil => simp [leadsWith]
      | cons b bs =>
          rw [leadsWith]
          constructor
          · intro h
            rcases Bool.and_eq_true _ _ |>.mp h with ⟨h1, h2⟩
            have hab : a = b := by simpa using h1
            rcases (ih bs).mp h2 with ⟨post, hpost⟩
            refine ⟨post, ?_⟩
            subst hab
            rw [hpost]
            rfl
          · rintro ⟨post, hpost⟩
            rw [List.cons_append] at hpost
            injection hpost with h1 h2
            rw [Bool.and_eq_true]
            exact ⟨by simp [h1], (ih bs).mpr ⟨post, h2⟩⟩

theorem hasSub_iff (pat : List Char) :
    ∀ s, hasSub pat s = true ↔ ∃ pre post, s = pre ++ pat ++ post := by
  intro s
  induction s with
  | nil =>
      rw [hasSub, leadsWith_iff]
      constructor
      · rintro ⟨post, hpost⟩
        exact ⟨[], post, by simpa using hpost⟩
      · rintro ⟨pre, post, h⟩
        have h3 : pre = [] ∧ pat = [] ∧ post = [] := by
          have hh := h.symm
          simpa [List.append_eq_nil] using hh
        exact ⟨[], by simp [h3.2.1]⟩
  | cons c rest ih =>
      rw [hasSub, Bool.or_eq_true, leadsWith_iff, ih]
      constructor
      · rintro (⟨post, hpost⟩ | ⟨pre, post, h⟩)
        · exact ⟨[], post, by simpa using hpost⟩
        · exact ⟨c :: pre, post, by rw [h]; rfl⟩

      · rintro ⟨pre, post, h⟩
        cases pre with
        | nil => exact Or.inl ⟨post, by simpa using h⟩
        | cons p ps =>
            rw [List.cons_append, List.cons_append] at h
            injection h with h1 h2
            exact Or.inr ⟨ps, post, by rw [h2]⟩

theorem strHas_iff (s pat : String) :
    strHas s pat = true ↔ ∃ pre post : String, s = pre ++ pat ++ post := by
  rw [strHas, hasSub_iff]
  constructor
  · rintro ⟨pre, post, h⟩
    refine ⟨⟨pre⟩, ⟨post⟩, ?_⟩
    apply String.ext
    simpa using h
  · rintro ⟨pre, post, h⟩
    refine ⟨pre.data, post.data, ?_⟩
    rw [h]
    simp

/-- Running the decode loop over a concatenation: a fully successful prefix
continues with the remaining keys. -/
theorem runKeys_append_ok (doc : Doc) :
    ∀ (ks1 : List String) (st st1 : LoadState),
    runKeys doc st ks1 = .ok st1 →
    ∀ ks2, runKeys doc st (ks1 ++ ks2) = runKeys doc st1 ks2 := by
  intro ks1
  induction ks1 with
  | nil =>
      intro st st1 h ks2
      rw [runKeys] at h
      injection h with h
      rw [h]
      rfl
  | cons k ks ih =>
      intro st st1 h ks2
      rw [runKeys] at h
      rw [List.cons_append, runKeys]
      cases hs : stepKey doc st k with
      | error e => rw [hs] at h; exact absurd h (by simp)
      | ok st' =>
          rw [hs] at h
          exact ih st' st1 h ks2

/-- The first failing key aborts the whole pass with its error, regardless
of what keys remain after it. -/
theorem runKeys_abort (doc : Doc) (ks1 : List String) (st st1 : LoadState)
    (k : String) (e : LoadErr)
    (hpre : runKeys doc st ks1 = .ok st1) (hstep : stepKey doc st1 k = .error e) :
    ∀ ks2, runKeys doc st (ks1 ++ k :: ks2) = .error e := by
  intro ks2
  rw [runKeys_append_ok doc ks1 st st1 hpre, runKeys, hstep]

/-- Each wrapped diagnostic of `wrapBlockDiags`, made explicit. -/
theorem wrapBlockDiags_mem (T l : String) (r : Rng) (ds : List Diag) (d : Diag)
    (hd : d ∈ wrapBlockDiags T l r ds) :
    ∃ d0 ∈ ds, d = wrappedDiag T l r d0 := by
  rw [wrapBlockDiags] at hd
  rcases List.mem_map.mp hd with ⟨d0, hd0, heq⟩
  refine ⟨d0, hd0, ?_⟩
  rw [← heq]
  rfl

/-- Claim C7 (amended): the first failing key aborts the whole pass with
that key's error — no remaining keys are processed and the result does not
depend on them — and block-scoped failures are annotated with the enclosing
block's type and label plus a location: the diagnostic's own subject
location when the diagnostic carries one, otherwise the block's definition
location (the claim's unconditional "definition location" is corrected by
the counterexample below); the wrapped diagnostic always carries a
subject. -/
theorem C7_first_failure_aborts
    (doc : Doc) (st st1 : LoadState) (ks1 : List String) (k : String) (e : LoadErr)
    (hpre : runKeys doc st ks1 = .ok st1) (hstep : stepKey doc st1 k = .error e) :
    (∀ ks2 ks2', runKeys doc st (ks1 ++ k :: ks2) = .error e ∧
      runKeys doc st (ks1 ++ k :: ks2') = runKeys doc st (ks1 ++ k :: ks2)) ∧
    (∀ (T l : String) (r : Rng) (ds : List Diag) (d : Diag),
      d ∈ wrapBlockDiags T l r ds →
      ∃ d0 ∈ ds, d.summary = d0.summary ∧ d.subject ≠ none ∧
        (∃ tail, d.detail
          = "In " ++ T ++ (if l ≠ "" then " \"" ++ l ++ "\"" else "") ++ " block" ++ tail) ∧
        (∀ rng, d0.subject = some rng →
          ∃ tail, d.detail
            = "In " ++ T ++ (if l ≠ "" then " \"" ++ l ++ "\"" else "")
              ++ " block defined at " ++ locString rng ++ tail) ∧
        (d0.subject = none →
          ∃ tail, d.detail
            = "In " ++ T ++ (if l ≠ "" then " \"" ++ l ++ "\"" else "")
              ++ " block at " ++ locString r ++ tail)) := by
  constructor
  · intro ks2 ks2'
    constructor
    · exact runKeys_abort doc ks1 st st1 k e hpre hstep ks2
    · rw [runKeys_abort doc ks1 st st1 k e hpre hstep ks2,
        runKeys_abort doc ks1 st st1 k e hpre hstep ks2']
  · intro T l r ds d hd
    rcases wrapBlockDiags_mem T l r ds d hd with ⟨d0, hd0, heq⟩
    subst heq
    refine ⟨d0, hd0, rfl, by rw [wrappedDiag]; cases d0.subject <;> simp, ?_, ?_, ?_⟩
    · refine ⟨(match d0.subject with
        | some rng => " defined at " ++ rng.filename ++ ":" ++ toString rng.line
        | none => " at " ++ r.filename ++ ":" ++ toString r.line) ++
          (if d0.detail ≠ "" then ": " ++ d0.detail else ""), ?_⟩
      cases hs : d0.subject <;> simp [wrappedDiag, hs, String.append_assoc]
    · intro rng hrng
      refine ⟨(if d0.detail ≠ "" then ": " ++ d0.detail else ""), ?_⟩
      simp only [wrappedDiag, hrng, locString, String.append_assoc, ne_eq, ite_not]
      rw [show (" block defined at " : String) = " block" ++ " defined at " from rfl,
        String.append_assoc]
    · intro hrng
      refine ⟨(if d0.detail ≠ "" then ": " ++ d0.detail else ""), ?_⟩
      simp only [wrappedDiag, hrng, locString, String.append_assoc, ne_eq, ite_not]
      rw [show (" block at " : String) = " block" ++ " at " from rfl, String.append_assoc]

/-- Witness for C7: a concrete pass whose single block fails; the error is
returned no matter what keys would have followed. -/
theorem C7_first_failure_aborts_witness :
    (∀ ks2 ks2',
      runKeys ⟨[], [⟨"app", "", .mk [⟨"y", .tref ⟨"nosuch", []⟩, ⟨"f.hcl", 5⟩⟩] [], ⟨"f.hcl", 2⟩⟩], []⟩
        (initState (fun _ => none)) ([] ++ "app" :: ks2)
        = .error (.diag [⟨"Unknown variable: nosuch", "In app block defined at f.hcl:5", some ⟨"f.hcl", 5⟩⟩]) ∧
      runKeys ⟨[], [⟨"app", "", .mk [⟨"y", .tref ⟨"nosuch", []⟩, ⟨"f.hcl", 5⟩⟩] [], ⟨"f.hcl", 2⟩⟩], []⟩
        (initState (fun _ => none)) ([] ++ "app" :: ks2')
        = runKeys ⟨[], [⟨"app", "", .mk [⟨"y", .tref ⟨"nosuch", []⟩, ⟨"f.hcl", 5⟩⟩] [], ⟨"f.hcl", 2⟩⟩], []⟩
            (initState (fun _ => none)) ([] ++ "app" :: ks2)) ∧
    (∀ (T l : String) (r : Rng) (ds : List Diag) (d : Diag),
      d ∈ wrapBlockDiags T l r ds →
      ∃ d0 ∈ ds, d.summary = d0.summary ∧ d.subject ≠ none ∧
        (∃ tail, d.detail
          = "In " ++ T ++ (if l ≠ "" then " \"" ++ l ++ "\"" else "") ++ " block" ++ tail) ∧
        (∀ rng, d0.subject = some rng →
          ∃ tail, d.detail
            = "In " ++ T ++ (if l ≠ "" then " \"" ++ l ++ "\"" else "")
              ++ " block defined at " ++ locString rng ++ tail) ∧
        (d0.subject = none →
          ∃ tail, d.detail
            = "In " ++ T ++ (if l ≠ "" then " \"" ++ l ++ "\"" else "")
              ++ " block at " ++ locString r ++ tail)) :=
  C7_first_failure_aborts
    ⟨[], [⟨"app", "", .mk [⟨"y", .tref ⟨"nosuch", []⟩, ⟨"f.hcl", 5⟩⟩] [], ⟨"f.hcl", 2⟩⟩], []⟩
    (initState (fun _ => none)) (initState (fun _ => none)) [] "app"
    (.diag [⟨"Unknown variable: nosuch", "In app block defined at f.hcl:5", some ⟨"f.hcl", 5⟩⟩])
    rfl rfl

/-- Counterexample to C7's annotation wording: the block is defined at
`f.hcl:2`, the failing attribute's diagnostic subject is `f.hcl:5`; the
wrapped diagnostic says "defined at f.hcl:5" — the subject's location —
and the block's actual definition location `f.hcl:2` appears nowhere in
the reported detail. -/
theorem C7_counterexample_definition_location :
    loadModel ⟨[], [⟨"app", "", .mk [⟨"y", .tref ⟨"nosuch", []⟩, ⟨"f.hcl", 5⟩⟩] [], ⟨"f.hcl", 2⟩⟩], []⟩
        (fun _ => none)
      = .error (.diag [⟨"Unknown variable: nosuch", "In app block defined at f.hcl:5", some ⟨"f.hcl", 5⟩⟩]) ∧
    ¬ ∃ pre post : String, "In app block defined at f.hcl:5" = pre ++ "f.hcl:2" ++ post := by
  constructor
  · rfl
  · intro h
    have hh := (strHas_iff "In app block defined at f.hcl:5" "f.hcl:2").mpr h
    exact absurd hh (by decide)

theorem assocGet_eq_of_find? {l : List (String × Value)} {k : String} {e : String × Value}
    (hf : l.find? (fun e => e.1 == k) = some e) : assocGet l k = some e.2 := by
  unfold assocGet
  rw [hf]

theorem assocGet_eq_none_of_find? {l : List (String × Value)} {k : String}
    (hf : l.find? (fun e => e.1 == k) = none) : assocGet l k = none := by
  unfold assocGet
  rw [hf]

theorem assocGet_assocSet_self (l : List (String × Value)) (k : String) (v : Value) :
    assocGet (assocSet l k v) k = some v := by
  unfold assocSet
  by_cases hany : l.any (fun e => e.1 == k) = true
  · rw [if_pos hany]
    rcases List.any_eq_true.mp hany with ⟨e0, he0, hp0⟩
    have hsome : ∃ e, l.find? (fun e => e.1 == k) = some e := by
      cases hf : l.find? (fun e => e.1 == k) with
      | none =>
          rw [List.find?_eq_none] at hf
          exact absurd hp0 (hf e0 he0)
      | some e => exact ⟨e, rfl⟩
    rcases hsome with ⟨e, hf⟩
    have hp := List.find?_some hf
    have hfm : (l.map (fun e => if e.1 == k then (k, v) else e)).find?
        (fun e => e.1 == k) = some (k, v) := by
      rw [find?_map_fst _ _ (by intro x; split <;> simp_all), hf]
      show some (if (e.1 == k) = true then (k, v) else e) = some (k, v)
      rw [if_pos hp]
    rw [assocGet_eq_of_find? hfm]
  · rw [if_neg hany]
    have hnone : l.find? (fun e => e.1 == k) = none := by
      rw [List.find?_eq_none]
      intro e he hp
      exact hany (List.any_eq_true.mpr ⟨e, he, hp⟩)
    have hfm : (l ++ [(k, v)]).find? (fun e => e.1 == k) = some (k, v) := by
      rw [List.find?_append, hnone]
      simp
    rw [assocGet_eq_of_find? hfm]

theorem assocGet_assocSet_ne (l : List (String × Value)) (k k' : String) (v : Value)
    (hk : k' ≠ k) : assocGet (assocSet l k v) k' = assocGet l k' := by
  unfold assocSet
  by_cases hany : l.any (fun e => e.1 == k) = true
  · rw [if_pos hany]
    cases hf : l.find? (fun e => e.1 == k') with
    | none =>
        rw [assocGet_eq_none_of_find? hf, assocGet_eq_none_of_find?]
        rw [find?_map_fst _ _ (by intro x; split <;> simp_all), hf]
        rfl
    | some e =>
        have he1 : e.1 = k' := by simpa using List.find?_some hf
        have hfm : (l.map (fun e => if e.1 == k then (k, v) else e)).find?
            (fun e => e.1 == k') = some e := by
          rw [find?_map_fst _ _ (by intro x; split <;> simp_all), hf]
          show some (if (e.1 == k) = true then (k, v) else e) = some e
          rw [if_neg (by simp [he1, hk])]
        rw [assocGet_eq_of_find? hfm, assocGet_eq_of_find? hf]
  · rw [if_neg hany]
    cases hf : l.find? (fun e => e.1 == k') with
    | none =>
        rw [assocGet_eq_none_of_find? hf, assocGet_eq_none_of_find?]
        rw [List.find?_append, hf]
        have hkk : (k == k') = false := by
          simp
          exact fun h => hk h.symm
        simp [List.find?_cons, hkk]
    | some e =>
        rw [assocGet_eq_of_find? hf, assocGet_eq_of_find?]
        rw [List.find?_append, hf]
        rfl

/-- Unfolding of a successful `varStep`. -/
theorem varStep_ok_iff (env : Env) (vv : List (String × Value)) (vb : VarBlock)
    (env' : Env) (vv' : List (String × Value)) :
    varStep env vv vb = .ok (env', vv') ↔
      vb.body.children.isEmpty = true ∧
      ∃ a, vb.body.attrs.find? (fun a => a.name == "default") = some a ∧
        ∃ v, evalExpr env a.expr = .ok v ∧
          vv' = assocSet vv vb.label v ∧
          env' = envSet env "var" (objOfMap (assocSet vv vb.label v)) := by
  unfold varStep
  cases hc : vb.body.children.isEmpty with
  | false =>
      simp only [hc, Bool.not_false, if_true]
      constructor
      · intro h
        exact absurd h (by simp)
      · rintro ⟨h, -⟩
        exact absurd h (by simp)
  | true =>
      simp only [hc, Bool.not_true, Bool.false_eq_true, if_false]
      cases hf : vb.body.attrs.find? (fun a => a.name == "default") with
      | none =>
          constructor
          · intro h
            exact absurd h (by simp)
          · rintro ⟨-, a, ha, -⟩
            exact absurd ha (by simp)
      | some a =>
          cases he : evalExpr env a.expr with
          | error msg =>
              constructor
              · intro h
                exact absurd h (by simp [he])
              · rintro ⟨-, a', ha', v, hv, -⟩
                injection ha' with ha'
                rw [← ha'] at hv
                rw [he] at hv
                exact absurd hv (by simp)
          | ok v =>
              constructor
              · intro h
                simp only [he, Except.ok.injEq, Prod.mk.injEq] at h
                exact ⟨trivial, a, rfl, v, he, h.2.symm, h.1.symm⟩
              · rintro ⟨-, a', ha', v', hv', hvv, henv⟩
                injection ha' with ha'
                rw [← ha'] at hv'
                rw [he] at hv'
                injection hv' with hv'
                rw [hvv, henv]
                simp [he, hv']

/-- Claim C8 (amended): a `var` block whose body has no nested blocks and
no `default` attribute makes `varStep` fail with exactly the
missing-required-field message — which carries the file and line of the
declaration, the variable's label, and the words `missing required
"default" attribute` — and the whole pass aborts with that error when the
key is reached; a `var` block that does have a `default` attribute never
produces this error. -/
theorem C8_var_missing_default (vb : VarBlock) :
    (∀ (env : Env) (vv : List (String × Value)),
      vb.body.children = [] →
      vb.body.attrs.find? (fun a => a.name == "default") = none →
      varStep env vv vb = .error (.strErr (missingDefaultMsg vb.defRange vb.label))) ∧
    (∃ pre post, missingDefaultMsg vb.defRange vb.label
      = pre ++ "missing required \"default\" attribute" ++ post) ∧
    (∃ pre post, missingDefaultMsg vb.defRange vb.label
      = pre ++ locString vb.defRange ++ post) ∧
    (∃ pre post, missingDefaultMsg vb.defRange vb.label
      = pre ++ vb.label ++ post) ∧
    (∀ (env : Env) (vv : List (String × Value)) (a : BAttr),
      vb.body.attrs.find? (fun a => a.name == "default") = some a →
      ∀ msg, varStep env vv vb ≠ .error (.strErr msg)) ∧
    (∀ (doc : Doc) (st st1 : LoadState) (ks1 ks2 : List String),
      runKeys doc st ks1 = .ok st1 →
      (doc.vars.reverse).find? (fun v => v.key == vb.key) = some vb →
      vb.body.children = [] →
      vb.body.attrs.find? (fun a => a.name == "default") = none →
      runKeys doc st (ks1 ++ vb.key :: ks2)
        = .error (.strErr (missingDefaultMsg vb.defRange vb.label))) := by
  have hmiss : ∀ (env : Env) (vv : List (String × Value)),
      vb.body.children = [] →
      vb.body.attrs.find? (fun a => a.name == "default") = none →
      varStep env vv vb = .error (.strErr (missingDefaultMsg vb.defRange vb.label)) := by
    intro env vv hch hf
    have hemp : vb.body.children.isEmpty = true := by rw [hch]; rfl
    unfold varStep
    simp only [hemp, Bool.not_true, Bool.false_eq_true, if_false]
    rw [hf]
  refine ⟨hmiss, ?_, ?_, ?_, ?_, ?_⟩
  · refine ⟨vb.defRange.filename ++ ":" ++ toString vb.defRange.line ++ ": var \"" ++
      vb.label ++ "\" ", "", ?_⟩
    rw [missingDefaultMsg]
    rw [show ("\" missing required \"default\" attribute" : String)
      = "\" " ++ "missing required \"default\" attribute" from rfl]
    simp [String.append_assoc]
  · refine ⟨"", ": var \"" ++ vb.label ++ "\" missing required \"default\" attribute", ?_⟩
    rw [missingDefaultMsg, locString]
    simp [String.append_assoc]
  · refine ⟨vb.defRange.filename ++ ":" ++ toString vb.defRange.line ++ ": var \"",
      "\" missing required \"default\" attribute", ?_⟩
    rw [missingDefaultMsg]
  · intro env vv a ha msg h
    unfold varStep at h
    cases hc : vb.body.children.isEmpty with
    | false =>
        rw [hc] at h
        simp only [Bool.not_false, if_true] at h
        injection h with h
        exact LoadErr.noConfusion h
    | true =>
        rw [hc] at h
        simp only [Bool.not_true, Bool.false_eq_true, if_false] at h
        rw [ha] at h
        cases he : evalExpr env a.expr with
        | error m => simp [he] at h
        | ok v => simp [he] at h
  · intro doc st st1 ks1 ks2 hpre hfv hch hf
    have hstep : stepKey doc st1 vb.key
        = .error (.strErr (missingDefaultMsg vb.defRange vb.label)) := by
      unfold stepKey
      simp [hfv, hmiss st1.env st1.varValues hch hf]
    exact runKeys_abort doc ks1 st st1 vb.key _ hpre hstep ks2

/-- Witness for C8: the `var "oops"` block at `v.hcl:3` without a `default`
attribute, inside a document, aborts the pass with the exact message. -/
theorem C8_var_missing_default_witness :
    varStep (fun _ => none) [] ⟨"oops", .mk [⟨"other", .lit (.str "x"), ⟨"v.hcl", 3⟩⟩] [], ⟨"v.hcl", 3⟩⟩
      = .error (.strErr (missingDefaultMsg ⟨"v.hcl", 3⟩ "oops")) ∧
    (∃ pre post, missingDefaultMsg ⟨"v.hcl", 3⟩ "oops"
      = pre ++ "missing required \"default\" attribute" ++ post) ∧
    runKeys ⟨[⟨"oops", .mk [⟨"other", .lit (.str "x"), ⟨"v.hcl", 3⟩⟩] [], ⟨"v.hcl", 3⟩⟩], [], []⟩
        (initState (fun _ => none)) ([] ++ "var.oops" :: [])
      = .error (.strErr (missingDefaultMsg ⟨"v.hcl", 3⟩ "oops")) := by
  have h := C8_var_missing_default
    ⟨"oops", .mk [⟨"other", .lit (.str "x"), ⟨"v.hcl", 3⟩⟩] [], ⟨"v.hcl", 3⟩⟩
  refine ⟨h.1 (fun _ => none) [] rfl rfl, h.2.1, ?_⟩
  exact h.2.2.2.2.2 ⟨[⟨"oops", .mk [⟨"other", .lit (.str "x"), ⟨"v.hcl", 3⟩⟩] [], ⟨"v.hcl", 3⟩⟩], [], []⟩
    (initState (fun _ => none)) (initState (fun _ => none)) [] [] rfl rfl rfl rfl

/-- Counterexample to C8 as stated: a `var` block that lacks `default` but
contains a nested block fails with the `JustAttributes` diagnostics
(`Blocks are not allowed here`), not with the missing-required-field
error. -/
theorem C8_counterexample_nested_block :
    loadModel ⟨[⟨"oops", .mk [] [("inner", .mk [] [])], ⟨"v.hcl", 3⟩⟩], [], []⟩ (fun _ => none)
      = .error (.diag [unexpectedBlockDiag]) ∧
    (∀ msg, (Except.error (LoadErr.diag [unexpectedBlockDiag]) : Except LoadErr LoadState)
      ≠ .error (.strErr msg)) := by
  refine ⟨rfl, ?_⟩
  intro msg h
  injection h with h
  exact LoadErr.noConfusion h

/-- Claim C10 (amended): provided no top-level attribute or block type is
itself named `var`, the cumulative `var` namespace grows monotonically: a
resolved variable is added to the map without removing or changing any
previously published variable and the whole map is republished, steps for
other keys leave both the map and the published `var` namespace untouched,
and in scenario B (`var "base"` / `var "host"` with
`default = "api.${var.base}"`) both declaration orders resolve `var.host`
to `"api.example.com"`. -/
theorem C10_cumulative_var_namespace :
    (∀ (env : Env) (vv : List (String × Value)) (vb : VarBlock) (env' : Env)
        (vv' : List (String × Value)),
      varStep env vv vb = .ok (env', vv') →
      (∃ v, assocGet vv' vb.label = some v) ∧
      (∀ l, l ≠ vb.label → assocGet vv' l = assocGet vv l) ∧
      env' "var" = some (objOfMap vv') ∧
      (∀ n, n ≠ "var" → env' n = env n)) ∧
    (∀ (doc : Doc) (st st' : LoadState) (k : String),
      (doc.vars.reverse).find? (fun vb => vb.key == k) = none →
      k ≠ "var" →
      (∀ b ∈ doc.blocks, b.typeName ≠ "var") →
      stepKey doc st k = .ok st' →
      st'.varValues = st.varValues ∧ st'.env "var" = st.env "var") ∧
    ((loadModel ⟨[varBaseBlock, varHostBlock], [], []⟩ (fun _ => none)).map
        (fun st => (st.env "var", st.varValues))
      = .ok (some (objOfMap [("base", .str "example.com"), ("host", .str "api.example.com")]),
          [("base", .str "example.com"), ("host", .str "api.example.com")]) ∧
     (loadModel ⟨[varHostBlock, varBaseBlock], [], []⟩ (fun _ => none)).map
        (fun st => (st.env "var", st.varValues))
      = .ok (some (objOfMap [("base", .str "example.com"), ("host", .str "api.example.com")]),
          [("base", .str "example.com"), ("host", .str "api.example.com")])) := by
  refine ⟨?_, ?_, rfl, rfl⟩
  · intro env vv vb env' vv' h
    obtain ⟨-, a, -, v, -, hvv, henv⟩ := (varStep_ok_iff env vv vb env' vv').mp h
    refine ⟨⟨v, ?_⟩, ?_, ?_, ?_⟩
    · rw [hvv]
      exact assocGet_assocSet_self vv vb.label v
    · intro l hl
      rw [hvv]
      exact assocGet_assocSet_ne vv vb.label l v hl
    · rw [henv, hvv, envSet]
      simp
    · intro n hn
      rw [henv, envSet]
      simp [hn]
  · intro doc st st' k hnv hk hb hstep
    unfold stepKey at hstep
    rw [hnv] at hstep
    simp only at hstep
    by_cases hif : doc.attrs.any (fun a => a.name == k) = true
    · rw [if_pos hif] at hstep
      cases hfa : doc.attrs.find? (fun a => a.name == k) with
      | none =>
          rw [hfa] at hstep
          simp only [Except.ok.injEq] at hstep
          rw [← hstep]
          exact ⟨rfl, rfl⟩
      | some a =>
          rw [hfa] at hstep
          cases he : evalExpr st.env a.expr with
          | error m => simp [he] at hstep
          | ok v =>
              simp only [he, Except.ok.injEq] at hstep
              rw [← hstep]
              refine ⟨rfl, ?_⟩
              show envSet st.env k v "var" = st.env "var"
              rw [envSet]
              simp [Ne.symm hk]
    · rw [if_neg hif] at hstep
      cases hfb : doc.blocks.filter (fun b => b.key == k) with
      | nil =>
          rw [hfb] at hstep
          simp only [Except.ok.injEq] at hstep
          rw [← hstep]
          exact ⟨rfl, rfl⟩
      | cons b0 brest =>
          have hb0 : b0.typeName ≠ "var" := by
            apply hb
            have : b0 ∈ doc.blocks.filter (fun b => b.key == k) := by
              rw [hfb]; exact List.mem_cons_self b0 brest
            exact List.mem_of_mem_filter this
          rw [hfb] at hstep
          by_cases hl : (b0.label != "") = true
          · simp only [hl, if_true] at hstep
            generalize List.foldl _ (Except.ok []) (b0 :: brest)
              = res at hstep
            cases res with
            | error e => simp at hstep
            | ok items =>
                simp only [Except.ok.injEq] at hstep
                rw [← hstep]
                refine ⟨rfl, ?_⟩
                show envSet st.env b0.typeName _ "var" = st.env "var"
                rw [envSet]
                simp [Ne.symm hb0]
          · rw [Bool.not_eq_true] at hl
            simp only [hl, Bool.false_eq_true, if_false] at hstep
            cases hdec : decodeBody st.env b0.body with
            | mk ds entries =>
                cases ds with
                | nil =>
                    rw [hdec] at hstep
                    simp only [Except.ok.injEq] at hstep
                    rw [← hstep]
                    refine ⟨rfl, ?_⟩
                    show envSet st.env b0.typeName _ "var" = st.env "var"
                    rw [envSet]
                    simp [Ne.symm hb0]
                | cons d ds' => rw [hdec] at hstep; simp at hstep

/-- Witness for C10: one concrete `varStep` (resolving `var.host` after
`var.base`) and one concrete non-`var` step, with every hypothesis
discharged. -/
theorem C10_cumulative_var_namespace_witness :
    ((∃ v, assocGet (assocSet [("base", Value.str "example.com")] "host"
        (Value.str "api.example.com")) "host" = some v) ∧
      assocGet (assocSet [("base", Value.str "example.com")] "host"
          (Value.str "api.example.com")) "base"
        = assocGet [("base", Value.str "example.com")] "base" ∧
      envSet (envSet (fun _ => none) "var" (objOfMap [("base", Value.str "example.com")])) "var"
          (objOfMap (assocSet [("base", Value.str "example.com")] "host"
            (Value.str "api.example.com"))) "var"
        = some (objOfMap (assocSet [("base", Value.str "example.com")] "host"
            (Value.str "api.example.com")))) ∧
    (LoadState.varValues ⟨envSet (fun _ => none) "db" (Value.obj []), [], [], [],
        [("db", Value.obj [])]⟩
      = LoadState.varValues (initState (fun _ => none))) := by
  have ha := C10_cumulative_var_namespace.1
    (envSet (fun _ => none) "var" (objOfMap [("base", Value.str "example.com")]))
    [("base", Value.str "example.com")] varHostBlock
    (envSet (envSet (fun _ => none) "var" (objOfMap [("base", Value.str "example.com")])) "var"
      (objOfMap (assocSet [("base", Value.str "example.com")] "host"
        (Value.str "api.example.com"))))
    (assocSet [("base", Value.str "example.com")] "host" (Value.str "api.example.com"))
    rfl
  have hb := C10_cumulative_var_namespace.2.1
    ⟨[], [⟨"db", "", .mk [] [], ⟨"m.hcl", 1⟩⟩], []⟩
    (initState (fun _ => none))
    ⟨envSet (fun _ => none) "db" (Value.obj []), [], [], [], [("db", Value.obj [])]⟩
    "db" rfl (by decide) (by decide) rfl
  exact ⟨⟨ha.1, ha.2.1 "base" (by decide), ha.2.2.1⟩, hb.1⟩

/-- Counterexample to C10 as stated: with a top-level attribute itself named
`var`, the attribute's value replaces the whole published `var` namespace
object, so `var.host`'s default `"api.${var.base}"` no longer sees the
previously resolved `var.base` and the load fails instead of resolving
`var.host` to `"api.example.com"`. -/
theorem C10_counterexample_attr_named_var :
    loadModel ⟨[varBaseBlock, varHostBlock], [],
        [⟨"var", .lit (.str "clobber"), ⟨"w.hcl", 2⟩⟩]⟩ (fun _ => none)
      = .error (.diag [⟨"Unsupported attribute access", "", some ⟨"v.hcl", 4⟩⟩]) ∧
    ∀ st, loadModel ⟨[varBaseBlock, varHostBlock], [],
        [⟨"var", .lit (.str "clobber"), ⟨"w.hcl", 2⟩⟩]⟩ (fun _ => none) ≠ .ok st := by
  refine ⟨rfl, ?_⟩
  intro st h
  have h' : (Except.error (LoadErr.diag
      [⟨"Unsupported attribute access", "", some ⟨"v.hcl", 4⟩⟩]) : Except LoadErr LoadState)
      = .ok st := h
  exact Except.noConfusion h'

/-- Counterexample to C2 as stated: two independent entities (no dependency
path between them in the built graph, in either direction) whose exchange
changes the result.  Mode 1: a block holding a bare reference to a labeled
type succeeds when declared after that type's instance but fails with
`Unknown variable` when declared before it.  Mode 2: two labeled instances
of one type produce their slice elements in evaluation order, so exchanging
them reverses the decoded slice. -/
theorem C2_counterexample_order_dependence :
    (∀ n, ¬ ReachN (keysOf (loadInfosOf ⟨[], [svcApi, docBlk], []⟩))
        (loadDepsOf ⟨[], [svcApi, docBlk], []⟩) (n + 1) "service.api" "doc") ∧
    (∀ n, ¬ ReachN (keysOf (loadInfosOf ⟨[], [svcApi, docBlk], []⟩))
        (loadDepsOf ⟨[], [svcApi, docBlk], []⟩) (n + 1) "doc" "service.api") ∧
    (∃ st, loadModel ⟨[], [svcApi, docBlk], []⟩ (fun _ => none) = .ok st) ∧
    loadModel ⟨[], [docBlk, svcApi], []⟩ (fun _ => none)
      = .error (.diag [⟨"Unknown variable: service", "In doc block defined at s.hcl:8",
          some ⟨"s.hcl", 8⟩⟩]) ∧
    (∀ n, ¬ ReachN (keysOf (loadInfosOf ⟨[], [svcApi, svcWeb], []⟩))
        (loadDepsOf ⟨[], [svcApi, svcWeb], []⟩) (n + 1) "service.api" "service.web") ∧
    (∀ n, ¬ ReachN (keysOf (loadInfosOf ⟨[], [svcApi, svcWeb], []⟩))
        (loadDepsOf ⟨[], [svcApi, svcWeb], []⟩) (n + 1) "service.web" "service.api") ∧
    (loadModel ⟨[], [svcApi, svcWeb], []⟩ (fun _ => none)).map
        (fun st => getSlice st.slices "service")
      = .ok [("api", Value.obj [("port", Value.num 1)]), ("web", Value.obj [("port", Value.num 2)])] ∧
    (loadModel ⟨[], [svcWeb, svcApi], []⟩ (fun _ => none)).map
        (fun st => getSlice st.slices "service")
      = .ok [("web", Value.obj [("port", Value.num 2)]), ("api", Value.obj [("port", Value.num 1)])] := by
  refine ⟨?_, ?_, ⟨_, rfl⟩, rfl, ?_, ?_, rfl, rfl⟩
  · rintro n ⟨b, ⟨-, hb, hd⟩, -⟩
    rw [show lookupDeps (loadDepsOf ⟨[], [svcApi, docBlk], []⟩) "service.api"
      = ([] : List String) from rfl] at hd
    exact absurd hd (List.not_mem_nil b)
  · rintro n ⟨b, ⟨-, hb, hd⟩, -⟩
    rw [show lookupDeps (loadDepsOf ⟨[], [svcApi, docBlk], []⟩) "doc"
      = ["service"] from rfl] at hd
    rw [List.mem_singleton.mp hd] at hb
    exact absurd hb (by decide)
  · rintro n ⟨b, ⟨-, hb, hd⟩, -⟩
    rw [show lookupDeps (loadDepsOf ⟨[], [svcApi, svcWeb], []⟩) "service.api"
      = ([] : List String) from rfl] at hd
    exact absurd hd (List.not_mem_nil b)
  · rintro n ⟨b, ⟨-, hb, hd⟩, -⟩
    rw [show lookupDeps (loadDepsOf ⟨[], [svcApi, svcWeb], []⟩) "service.web"
      = ([] : List String) from rfl] at hd
    exact absurd hd (List.not_mem_nil b)

theorem stateEquiv_refl (s : LoadState) : StateEquiv s s :=
  ⟨fun _ => rfl, rfl, fun _ => rfl, fun _ => rfl, fun _ => rfl⟩

theorem envSet_apply (e : Env) (a : String) (v : Value) (n : String) :
    envSet e a v n = if n = a then some v else e n := by
  rw [envSet]
  by_cases h : n = a
  · simp [h]
  · simp [h]

theorem envSet_comm_apply (e : Env) (a b : String) (va vb : Value) (hab : a ≠ b) (n : String) :
    envSet (envSet e a va) b vb n = envSet (envSet e b vb) a va n := by
  rw [envSet_apply, envSet_apply, envSet_apply, envSet_apply]
  by_cases hb : n = b
  · rw [if_pos hb, if_neg (by rw [hb]; exact fun h => hab h.symm), if_pos hb]
  · rw [if_neg hb, if_neg hb]

theorem assocGet_append (l1 l2 : List (String × Value)) (n : String) :
    assocGet (l1 ++ l2) n =
      match assocGet l1 n with
      | some v => some v
      | none => assocGet l2 n := by
  rw [assocGet, assocGet, assocGet, List.find?_append]
  cases h : l1.find? (fun e => e.1 == n) with
  | some e => rfl
  | none => rfl

theorem assocGet_single (k : String) (v : Value) (n : String) :
    assocGet [(k, v)] n = if k = n then some v else none := by
  rw [assocGet]
  by_cases h : k = n
  · simp [List.find?, h]
  · have hb : (k == n) = false := by simpa using h
    simp [List.find?, hb, h]

theorem assocGet_pair_comm (l : List (String × Value)) (k1 k2 : String)
    (v1 v2 : Value) (h : k1 ≠ k2) (n : String) :
    assocGet ((l ++ [(k1, v1)]) ++ [(k2, v2)]) n
      = assocGet ((l ++ [(k2, v2)]) ++ [(k1, v1)]) n := by
  rw [assocGet_append, assocGet_append, assocGet_append, assocGet_append,
    assocGet_single, assocGet_single]
  cases hl : assocGet l n with
  | some v => rfl
  | none =>
      by_cases h1 : k1 = n
      · rw [if_pos h1, if_neg (by rw [← h1]; exact fun hh => h hh.symm)]
      · rw [if_neg h1]
        by_cases h2 : k2 = n
        · rw [if_pos h2]
        · rw [if_neg h2]

theorem getSlice_map_update (s : List (String × List (String × Value))) (T : String)
    (i : List (String × Value)) :
    getSlice (s.map (fun e => if e.1 == T then (e.1, e.2 ++ i) else e)) T
      = if s.any (fun e => e.1 == T) then getSlice s T ++ i else getSlice s T := by
  induction s with
  | nil => simp [getSlice]
  | cons a s' ih =>
      by_cases ha : (a.1 == T) = true
      · simp only [List.map_cons, if_pos ha, List.any_cons, ha, Bool.true_or, if_true]
        rw [getSlice, getSlice]
        simp only [List.find?_cons, ha]
      · have ha' : (a.1 == T) = false := by simpa using ha
        simp only [List.map_cons, ha', Bool.false_eq_true, if_false, List.any_cons,
          Bool.false_or]
        rw [getSlice, getSlice]
        simp only [List.find?_cons, ha']
        rw [← getSlice, ← getSlice, ih]

theorem getSlice_map_update_ne (s : List (String × List (String × Value))) (T T' : String)
    (i : List (String × Value)) (hT : T' ≠ T) :
    getSlice (s.map (fun e => if e.1 == T then (e.1, e.2 ++ i) else e)) T'
      = getSlice s T' := by
  induction s with
  | nil => simp [getSlice]
  | cons a s' ih =>
      by_cases ha : (a.1 == T) = true
      · have ha2 : (a.1 == T') = false := by
          have h1 : a.1 = T := by simpa using ha
          have h2 : ¬ a.1 = T' := by rw [h1]; exact fun h => hT h.symm
          simpa using h2
        simp only [List.map_cons, if_pos ha]
        rw [getSlice, getSlice]
        simp only [List.find?_cons, ha2]
        rw [← getSlice, ← getSlice, ih]
      · have ha' : (a.1 == T) = false := by simpa using ha
        simp only [List.map_cons, ha', Bool.false_eq_true, if_false]
        rw [getSlice, getSlice]
        cases ha2 : (a.1 == T') with
        | true => simp only [List.find?_cons, ha2]
        | false =>
            simp only [List.find?_cons, ha2]
            rw [← getSlice, ← getSlice, ih]

theorem getSlice_pushSlice_self (s : List (String × List (String × Value))) (T : String)
    (i : List (String × Value)) :
    getSlice (pushSlice s T i) T = getSlice s T ++ i := by
  rw [pushSlice]
  by_cases hany : s.any (fun e => e.1 == T) = true
  · rw [if_pos hany, getSlice_map_update, if_pos hany]
  · rw [if_neg hany]
    have hnone : s.find? (fun e => e.1 == T) = none := by
      rw [List.find?_eq_none]
      intro x hx
      intro hpx
      exact hany (List.any_eq_true.mpr ⟨x, hx, hpx⟩)
    rw [getSlice, getSlice, List.find?_append, hnone]
    simp [List.find?]

theorem getSlice_pushSlice_ne (s : List (String × List (String × Value))) (T T' : String)
    (i : List (String × Value)) (hT : T' ≠ T) :
    getSlice (pushSlice s T i) T' = getSlice s T' := by
  rw [pushSlice]
  by_cases hany : s.any (fun e => e.1 == T) = true
  · rw [if_pos hany, getSlice_map_update_ne s T T' i hT]
  · rw [if_neg hany, getSlice, getSlice, List.find?_append]
    cases hf : s.find? (fun e => e.1 == T') with
    | some e => rfl
    | none =>
        have hTT : (T == T') = false := by simpa using fun h => hT h.symm
        simp [List.find?, hTT]

theorem applyDelta_comm (st : LoadState) (d1 d2 : StepDelta)
    (hw : ∀ n, n ∈ deltaWrites d1 → ¬ n ∈ deltaWrites d2) :
    StateEquiv (applyDelta (applyDelta st d1) d2) (applyDelta (applyDelta st d2) d1) := by
  cases d1 with
  | skip => simp only [applyDelta]; exact stateEquiv_refl _
  | pubVar l1 v1 =>
      cases d2 with
      | skip => simp only [applyDelta]; exact stateEquiv_refl _
      | pubVar l2 v2 =>
          exact absurd (hw "var" (by simp [deltaWrites])) (by simp [deltaWrites])
      | pubAttr n2 v2 =>
          have hne : "var" ≠ n2 := by
            have h := hw "var" (by simp [deltaWrites])
            simpa [deltaWrites] using h
          simp only [applyDelta]
          exact ⟨fun n => envSet_comm_apply st.env "var" n2 _ v2 hne n,
            rfl, fun T => rfl, fun n => rfl, fun n => rfl⟩
      | pubSlice t2 i2 =>
          have hne : "var" ≠ t2 := by
            have h := hw "var" (by simp [deltaWrites])
            simpa [deltaWrites] using h
          simp only [applyDelta]
          exact ⟨fun n => envSet_comm_apply st.env "var" t2 _ _ hne n,
            rfl, fun T => rfl, fun n => rfl, fun n => rfl⟩
      | pubSingle t2 v2 =>
          have hne : "var" ≠ t2 := by
            have h := hw "var" (by simp [deltaWrites])
            simpa [deltaWrites] using h
          simp only [applyDelta]
          exact ⟨fun n => envSet_comm_apply st.env "var" t2 _ v2 hne n,
            rfl, fun T => rfl, fun n => rfl, fun n => rfl⟩
  | pubAttr n1 v1 =>
      cases d2 with
      | skip => simp only [applyDelta]; exact stateEquiv_refl _
      | pubVar l2 v2 =>
          have hne : n1 ≠ "var" := by
            have h := hw n1 (by simp [deltaWrites])
            simpa [deltaWrites] using h
          simp only [applyDelta]
          exact ⟨fun n => envSet_comm_apply st.env n1 "var" v1 _ hne n,
            rfl, fun T => rfl, fun n => rfl, fun n => rfl⟩
      | pubAttr n2 v2 =>
          have hne : n1 ≠ n2 := by
            have h := hw n1 (by simp [deltaWrites])
            simpa [deltaWrites] using h
          simp only [applyDelta]
          exact ⟨fun n => envSet_comm_apply st.env n1 n2 v1 v2 hne n,
            rfl, fun T => rfl,
            fun n => assocGet_pair_comm st.dstAttrs n1 n2 v1 v2 hne n,
            fun n => rfl⟩
      | pubSlice t2 i2 =>
          have hne : n1 ≠ t2 := by
            have h := hw n1 (by simp [deltaWrites])
            simpa [deltaWrites] using h
          simp only [applyDelta]
          exact ⟨fun n => envSet_comm_apply st.env n1 t2 v1 _ hne n,
            rfl, fun T => rfl, fun n => rfl, fun n => rfl⟩
      | pubSingle t2 v2 =>
          have hne : n1 ≠ t2 := by
            have h := hw n1 (by simp [deltaWrites])
            simpa [deltaWrites] using h
          simp only [applyDelta]
          exact ⟨fun n => envSet_comm_apply st.env n1 t2 v1 v2 hne n,
            rfl, fun T => rfl, fun n => rfl, fun n => rfl⟩
  | pubSlice t1 i1 =>
      cases d2 with
      | skip => simp only [applyDelta]; exact stateEquiv_refl _
      | pubVar l2 v2 =>
          have hne : t1 ≠ "var" := by
            have h := hw t1 (by simp [deltaWrites])
            simpa [deltaWrites] using h
          simp only [applyDelta]
          exact ⟨fun n => envSet_comm_apply st.env t1 "var" _ _ hne n,
            rfl, fun T => rfl, fun n => rfl, fun n => rfl⟩
      | pubAttr n2 v2 =>
          have hne : t1 ≠ n2 := by
            have h := hw t1 (by simp [deltaWrites])
            simpa [deltaWrites] using h
          simp only [applyDelta]
          exact ⟨fun n => envSet_comm_apply st.env t1 n2 _ v2 hne n,
            rfl, fun T => rfl, fun n => rfl, fun n => rfl⟩
      | pubSlice t2 i2 =>
          have hne : t1 ≠ t2 := by
            have h := hw t1 (by simp [deltaWrites])
            simpa [deltaWrites] using h
          have hne2 : t2 ≠ t1 := fun h => hne h.symm
          simp only [applyDelta]
          refine ⟨?_, rfl, ?_, fun n => rfl, fun n => rfl⟩
          · intro n
            have h1 : getSlice (pushSlice (pushSlice st.slices t1 i1) t2 i2) t2
                = getSlice (pushSlice st.slices t2 i2) t2 := by
              rw [getSlice_pushSlice_self, getSlice_pushSlice_self,
                getSlice_pushSlice_ne st.slices t1 t2 i1 hne2]
            have h2 : getSlice (pushSlice (pushSlice st.slices t2 i2) t1 i1) t1
                = getSlice (pushSlice st.slices t1 i1) t1 := by
              rw [getSlice_pushSlice_self, getSlice_pushSlice_self,
                getSlice_pushSlice_ne st.slices t2 t1 i2 hne]
            rw [h1, h2]
            exact envSet_comm_apply st.env t1 t2 _ _ hne n
          · intro T
            by_cases hT1 : T = t1
            · rw [hT1, getSlice_pushSlice_ne _ t2 t1 i2 hne,
                getSlice_pushSlice_self, getSlice_pushSlice_self,
                getSlice_pushSlice_ne _ t2 t1 i2 hne]
            · by_cases hT2 : T = t2
              · rw [hT2, getSlice_pushSlice_self,
                  getSlice_pushSlice_ne _ t1 t2 i1 hne2,
                  getSlice_pushSlice_ne _ t1 t2 i1 hne2, getSlice_pushSlice_self]
              · rw [getSlice_pushSlice_ne _ t2 T i2 hT2,
                  getSlice_pushSlice_ne _ t1 T i1 hT1,
                  getSlice_pushSlice_ne _ t1 T i1 hT1,
                  getSlice_pushSlice_ne _ t2 T i2 hT2]
      | pubSingle t2 v2 =>
          have hne : t1 ≠ t2 := by
            have h := hw t1 (by simp [deltaWrites])
            simpa [deltaWrites] using h
          simp only [applyDelta]
          exact ⟨fun n => envSet_comm_apply st.env t1 t2 _ v2 hne n,
            rfl, fun T => rfl, fun n => rfl, fun n => rfl⟩
  | pubSingle t1 v1 =>
      cases d2 with
      | skip => simp only [applyDelta]; exact stateEquiv_refl _
      | pubVar l2 v2 =>
          have hne : t1 ≠ "var" := by
            have h := hw t1 (by simp [deltaWrites])
            simpa [deltaWrites] using h
          simp only [applyDelta]
          exact ⟨fun n => envSet_comm_apply st.env t1 "var" v1 _ hne n,
            rfl, fun T => rfl, fun n => rfl, fun n => rfl⟩
      | pubAttr n2 v2 =>
          have hne : t1 ≠ n2 := by
            have h := hw t1 (by simp [deltaWrites])
            simpa [deltaWrites] using h
          simp only [applyDelta]
          exact ⟨fun n => envSet_comm_apply st.env t1 n2 v1 v2 hne n,
            rfl, fun T => rfl, fun n => rfl, fun n => rfl⟩
      | pubSlice t2 i2 =>
          have hne : t1 ≠ t2 := by
            have h := hw t1 (by simp [deltaWrites])
            simpa [deltaWrites] using h
          simp only [applyDelta]
          exact ⟨fun n => envSet_comm_apply st.env t1 t2 v1 _ hne n,
            rfl, fun T => rfl, fun n => rfl, fun n => rfl⟩
      | pubSingle t2 v2 =>
          have hne : t1 ≠ t2 := by
            have h := hw t1 (by simp [deltaWrites])
            simpa [deltaWrites] using h
          simp only [applyDelta]
          exact ⟨fun n => envSet_comm_apply st.env t1 t2 v1 v2 hne n,
            rfl, fun T => rfl, fun n => rfl,
            fun n => assocGet_pair_comm st.dstSingles t1 t2 v1 v2 hne n⟩

theorem stepKey_delta (doc : Doc) (st : LoadState) (k : String) :
    stepKey doc st k = (stepDelta doc st.env st.varValues k).map (applyDelta st) := by
  unfold stepKey stepDelta
  cases hfv : (doc.vars.reverse).find? (fun vb => vb.key == k) with
  | some vb =>
      unfold varStep
      cases hc : vb.body.children.isEmpty with
      | false => simp [hc, Except.map]
      | true =>
          simp only [hc, Bool.not_true, Bool.false_eq_true, if_false]
          cases hf : vb.body.attrs.find? (fun a => a.name == "default") with
          | none => simp [Except.map]
          | some a =>
              cases he : evalExpr st.env a.expr with
              | error m => simp [he, Except.map]
              | ok v => simp [he, Except.map, applyDelta]
  | none =>
      by_cases hif : doc.attrs.any (fun a => a.name == k) = true
      · simp only [hif, if_true]
        cases hfa : doc.attrs.find? (fun a => a.name == k) with
        | none => simp [hfa, Except.map, applyDelta]
        | some a =>
            cases he : evalExpr st.env a.expr with
            | error m => simp [hfa, he, Except.map]
            | ok v => simp [hfa, he, Except.map, applyDelta]
      · simp only [hif, Bool.false_eq_true, if_false]
        cases hfb : doc.blocks.filter (fun b => b.key == k) with
        | nil => simp [Except.map, applyDelta]
        | cons b0 brest =>
            by_cases hl : (b0.label != "") = true
            · simp only [hl, if_true]
              generalize List.foldl _ (Except.ok []) (b0 :: brest) = res
              cases res with
              | error e => simp [Except.map]
              | ok items => simp [Except.map, applyDelta]
            · rw [Bool.not_eq_true] at hl
              simp only [hl, Bool.false_eq_true, if_false]
              cases hdec : decodeBody st.env b0.body with
              | mk ds entries =>
                  cases ds with
                  | nil => simp [hdec, Except.map, applyDelta]
                  | cons d ds' => simp [hdec, Except.map]

theorem evalTraversal_local (env1 env2 : Env) (t : Traversal)
    (h : env1 t.root = env2 t.root) :
    evalTraversal env1 t = evalTraversal env2 t := by
  unfold evalTraversal
  rw [h]

theorem interpFold_local (env1 env2 : Env) (ps : List Part)
    (h : ∀ t : Traversal, Part.r t ∈ ps → env1 t.root = env2 t.root) :
    ∀ acc : String,
      ps.foldlM (fun acc p =>
        match p with
        | .s txt => Except.ok (acc ++ txt)
        | .r t => do
            let v ← evalTraversal env1 t
            let r ← renderValue v
            Except.ok (acc ++ r)) acc
      = ps.foldlM (fun acc p =>
        match p with
        | .s txt => Except.ok (acc ++ txt)
        | .r t => do
            let v ← evalTraversal env2 t
            let r ← renderValue v
            Except.ok (acc ++ r)) acc := by
  induction ps with
  | nil => intro acc; rfl
  | cons p ps' ih =>
      intro acc
      have h' : ∀ t : Traversal, Part.r t ∈ ps' → env1 t.root = env2 t.root :=
        fun t ht => h t (List.mem_cons_of_mem p ht)
      cases p with
      | s txt =>
          simp only [List.foldlM]
          congr 1
          funext x
          exact ih h' x
      | r t =>
          have ht : evalTraversal env1 t = evalTraversal env2 t :=
            evalTraversal_local env1 env2 t (h t (List.mem_cons_self _ _))
          simp only [List.foldlM, ht]
          congr 1
          funext x
          exact ih h' x

theorem evalExpr_local (env1 env2 : Env) (e : Expr)
    (h : ∀ r ∈ rootsOf (exprVars e), env1 r = env2 r) :
    evalExpr env1 e = evalExpr env2 e := by
  cases e with
  | lit v => rfl
  | tref t =>
      simp only [evalExpr]
      exact evalTraversal_local env1 env2 t (h t.root (by simp [exprVars, rootsOf]))
  | interp ps =>
      simp only [evalExpr]
      rw [interpFold_local env1 env2 ps ?_ ""]
      intro t ht
      apply h
      simp only [exprVars, rootsOf, List.mem_map]
      refine ⟨t, ?_, rfl⟩
      rw [List.mem_filterMap]
      exact ⟨Part.r t, ht, rfl⟩

theorem foldl_congr_mem {α β : Type} (f g : β → α → β) (l : List α)
    (h : ∀ b, ∀ a ∈ l, f b a = g b a) : ∀ init, l.foldl f init = l.foldl g init := by
  induction l with
  | nil => intro init; rfl
  | cons a l' ih =>
      intro init
      simp only [List.foldl_cons]
      rw [h init a (List.mem_cons_self a l'),
        ih (fun b a' ha' => h b a' (List.mem_cons_of_mem a ha'))]

theorem travFold_factor (attrs : List BAttr) :
    ∀ acc, attrs.foldl (fun acc a => acc ++ exprVars a.expr) acc
      = acc ++ attrs.foldl (fun acc a => acc ++ exprVars a.expr) [] := by
  induction attrs with
  | nil => intro acc; simp
  | cons a rest ih =>
      intro acc
      simp only [List.foldl_cons]
      rw [ih (acc ++ exprVars a.expr), ih ([] ++ exprVars a.expr)]
      simp [List.append_assoc]

theorem mem_travFold (attrs : List BAttr) (a : BAttr) (ha : a ∈ attrs)
    (t : Traversal) (ht : t ∈ exprVars a.expr) :
    t ∈ attrs.foldl (fun acc a => acc ++ exprVars a.expr) [] := by
  induction attrs with
  | nil => exact absurd ha (List.not_mem_nil a)
  | cons a0 rest ih =>
      simp only [List.foldl_cons]
      rw [travFold_factor rest ([] ++ exprVars a0.expr)]
      rcases List.mem_cons.mp ha with h1 | h2
      · rw [← h1]
        exact List.mem_append_left _ (by simpa using ht)
      · exact List.mem_append_right _ (ih h2)

theorem root_mem_body_of_attr (attrs : List BAttr) (children : List (String × Body))
    (a : BAttr) (ha : a ∈ attrs) (r : String) (hr : r ∈ rootsOf (exprVars a.expr)) :
    r ∈ rootsOf (bodyTravs (.mk attrs children)) := by
  simp only [rootsOf, List.mem_map] at hr
  obtain ⟨t, ht, rfl⟩ := hr
  simp only [bodyTravs, rootsOf, List.mem_map]
  exact ⟨t, List.mem_append_left _ (mem_travFold attrs a ha t ht), rfl⟩

theorem root_mem_body_of_children (attrs : List BAttr) (children : List (String × Body))
    (r : String) (hr : r ∈ rootsOf (nestedTravs children)) :
    r ∈ rootsOf (bodyTravs (.mk attrs children)) := by
  simp only [rootsOf, List.mem_map] at hr
  obtain ⟨t, ht, rfl⟩ := hr
  simp only [bodyTravs, rootsOf, List.mem_map]
  exact ⟨t, List.mem_append_right _ ht, rfl⟩

mutual

theorem decodeBody_local (env1 env2 : Env) : ∀ (b : Body),
    (∀ r ∈ rootsOf (bodyTravs b), env1 r = env2 r) →
    decodeBody env1 b = decodeBody env2 b
  | .mk attrs children, h => by
      unfold decodeBody
      have har : attrs.foldl (fun (acc : List Diag × List (String × Value)) a =>
            match evalExpr env1 a.expr with
            | .ok v => (acc.1, acc.2 ++ [(a.name, v)])
            | .error msg => (acc.1 ++ [{ summary := msg, subject := some a.range }], acc.2))
            ([], [])
          = attrs.foldl (fun (acc : List Diag × List (String × Value)) a =>
            match evalExpr env2 a.expr with
            | .ok v => (acc.1, acc.2 ++ [(a.name, v)])
            | .error msg => (acc.1 ++ [{ summary := msg, subject := some a.range }], acc.2))
            ([], []) := by
        apply foldl_congr_mem
        intro acc a ha
        have he : evalExpr env1 a.expr = evalExpr env2 a.expr := by
          apply evalExpr_local
          intro r hr
          exact h r (root_mem_body_of_attr attrs children a ha r hr)
        rw [he]
      have hch : decodeChildren env1 children = decodeChildren env2 children :=
        decodeChildren_local env1 env2 children
          (fun r hr => h r (root_mem_body_of_children attrs children r hr))
      rw [har, hch]

theorem decodeChildren_local (env1 env2 : Env) : ∀ (cs : List (String × Body)),
    (∀ r ∈ rootsOf (nestedTravs cs), env1 r = env2 r) →
    decodeChildren env1 cs = decodeChildren env2 cs
  | [], _ => rfl
  | (nm, b) :: rest, h => by
      unfold decodeChildren
      have hb : decodeBody env1 b = decodeBody env2 b := by
        apply decodeBody_local env1 env2 b
        intro r hr
        apply h
        simp only [nestedTravs, rootsOf, List.map_append]
        exact List.mem_append_left _ hr
      have hrest : decodeChildren env1 rest = decodeChildren env2 rest := by
        apply decodeChildren_local env1 env2 rest
        intro r hr
        apply h
        simp only [nestedTravs, rootsOf, List.map_append]
        exact List.mem_append_right _ hr
      rw [hb, hrest]

end

theorem root_mem_body_attr (b : Body) (a : BAttr) (ha : a ∈ b.attrs) (r : String)
    (hr : r ∈ rootsOf (exprVars a.expr)) : r ∈ rootsOf (bodyTravs b) := by
  cases b with
  | mk attrs children => exact root_mem_body_of_attr attrs children a ha r hr

theorem foldl_append_factor {α β : Type} (g : α → List β) (l : List α) :
    ∀ acc, l.foldl (fun acc x => acc ++ g x) acc
      = acc ++ l.foldl (fun acc x => acc ++ g x) [] := by
  induction l with
  | nil => intro acc; simp
  | cons x l' ih =>
      intro acc
      simp only [List.foldl_cons]
      rw [ih (acc ++ g x), ih ([] ++ g x)]
      simp [List.append_assoc]

theorem mem_foldl_append {α β : Type} (g : α → List β) (l : List α) (x : α) (hx : x ∈ l)
    (b : β) (hb : b ∈ g x) : b ∈ l.foldl (fun acc x => acc ++ g x) [] := by
  induction l with
  | nil => exact absurd hx (List.not_mem_nil x)
  | cons x0 l' ih =>
      simp only [List.foldl_cons]
      rw [foldl_append_factor g l' ([] ++ g x0)]
      rcases List.mem_cons.mp hx with h1 | h2
      · refine List.mem_append_left _ ?_
        rw [← h1]
        simpa using hb
      · exact List.mem_append_right _ (ih h2)

theorem stepDelta_local (doc : Doc) (env1 env2 : Env) (vv1 vv2 : List (String × Value))
    (k : String) (henv : ∀ r ∈ stepReads doc k, env1 r = env2 r) :
    stepDelta doc env1 vv1 k = stepDelta doc env2 vv2 k := by
  unfold stepDelta
  cases hfv : (doc.vars.reverse).find? (fun vb => vb.key == k) with
  | some vb =>
      have hreads_eq : stepReads doc k = rootsOf (bodyTravs vb.body) := by
        unfold stepReads; rw [hfv]
      cases hc : vb.body.children.isEmpty with
      | false => simp [hc]
      | true =>
          simp only [hc, Bool.not_true, Bool.false_eq_true, if_false]
          cases hf : vb.body.attrs.find? (fun a => a.name == "default") with
          | none => rfl
          | some a =>
              have ha : a ∈ vb.body.attrs := List.mem_of_find?_eq_some hf
              have he : evalExpr env1 a.expr = evalExpr env2 a.expr := by
                apply evalExpr_local
                intro r hr
                apply henv
                rw [hreads_eq]
                exact root_mem_body_attr vb.body a ha r hr
              simp only [he]
  | none =>
      by_cases hif : doc.attrs.any (fun a => a.name == k) = true
      · simp only [hif, if_true]
        cases hfa : doc.attrs.find? (fun a => a.name == k) with
        | none => rfl
        | some a =>
            have hreads_eq : stepReads doc k = rootsOf (exprVars a.expr) := by
              unfold stepReads
              rw [hfv]
              simp only [hif, if_true]
              rw [hfa]
            have he : evalExpr env1 a.expr = evalExpr env2 a.expr := by
              apply evalExpr_local
              intro r hr
              apply henv
              rw [hreads_eq]
              exact hr
            simp only [he]
      · simp only [hif, Bool.false_eq_true, if_false]
        cases hfb : doc.blocks.filter (fun b => b.key == k) with
        | nil => rfl
        | cons b0 brest =>
            have hreads_eq : stepReads doc k
                = (b0 :: brest).foldl (fun acc b => acc ++ rootsOf (bodyTravs b.body)) [] := by
              unfold stepReads
              rw [hfv]
              simp only [hif, Bool.false_eq_true, if_false]
              rw [hfb]
            have hdec : ∀ b ∈ b0 :: brest, decodeBody env1 b.body = decodeBody env2 b.body := by
              intro b hb
              apply decodeBody_local
              intro r hr
              apply henv
              rw [hreads_eq]
              exact mem_foldl_append (fun b => rootsOf (bodyTravs b.body)) (b0 :: brest) b hb r hr
            by_cases hl : (b0.label != "") = true
            · simp only [hl, if_true]
              have hfold : (b0 :: brest).foldl
                    (fun (acc : Except LoadErr (List (String × Value))) b =>
                    match acc with
                    | Except.error e => Except.error e
                    | Except.ok items =>
                        match decodeBody env1 b.body with
                        | ([], entries) =>
                            Except.ok (items ++ [(b.label, Value.obj (sortFields entries))])
                        | (d :: ds, _) =>
                            Except.error
                              (LoadErr.diag (wrapBlockDiags b0.typeName b.label b.defRange (d :: ds))))
                    (Except.ok [])
                  = (b0 :: brest).foldl
                    (fun (acc : Except LoadErr (List (String × Value))) b =>
                    match acc with
                    | Except.error e => Except.error e
                    | Except.ok items =>
                        match decodeBody env2 b.body with
                        | ([], entries) =>
                            Except.ok (items ++ [(b.label, Value.obj (sortFields entries))])
                        | (d :: ds, _) =>
                            Except.error
                              (LoadErr.diag (wrapBlockDiags b0.typeName b.label b.defRange (d :: ds))))
                    (Except.ok []) := by
                apply foldl_congr_mem
                intro acc b hb
                simp only [hdec b hb]
              rw [hfold]
            · rw [Bool.not_eq_true] at hl
              simp only [hl, Bool.false_eq_true, if_false]
              rw [hdec b0 (List.mem_cons_self _ _)]

theorem applyDelta_env_frame (st : LoadState) (d : StepDelta) (n : String)
    (h : ¬ n ∈ deltaWrites d) : (applyDelta st d).env n = st.env n := by
  cases d with
  | skip => rfl
  | pubVar l v =>
      have hn : n ≠ "var" := by simpa [deltaWrites] using h
      simp only [applyDelta]
      rw [envSet_apply]
      exact if_neg hn
  | pubAttr n2 v =>
      have hn : n ≠ n2 := by simpa [deltaWrites] using h
      simp only [applyDelta]
      rw [envSet_apply]
      exact if_neg hn
  | pubSlice t i =>
      have hn : n ≠ t := by simpa [deltaWrites] using h
      simp only [applyDelta]
      rw [envSet_apply]
      exact if_neg hn
  | pubSingle t v =>
      have hn : n ≠ t := by simpa [deltaWrites] using h
      simp only [applyDelta]
      rw [envSet_apply]
      exact if_neg hn

theorem stepDelta_writes (doc : Doc) (env : Env) (vv : List (String × Value)) (k : String)
    (d : StepDelta) (h : stepDelta doc env vv k = .ok d) :
    ∀ n ∈ deltaWrites d, n ∈ stepWrites doc k := by
  unfold stepDelta at h
  unfold stepWrites
  cases hfv : (doc.vars.reverse).find? (fun vb => vb.key == k) with
  | some vb =>
      rw [hfv] at h
      cases hc : vb.body.children.isEmpty with
      | false => simp [hc] at h
      | true =>
          simp only [hc, Bool.not_true, Bool.false_eq_true, if_false] at h
          cases hf : vb.body.attrs.find? (fun a => a.name == "default") with
          | none => simp [hf] at h
          | some a =>
              cases he : evalExpr env a.expr with
              | error m => simp [hf, he] at h
              | ok v =>
                  simp only [hf, he, Except.ok.injEq] at h
                  rw [← h]
                  intro n hn
                  simpa [deltaWrites] using hn
  | none =>
      rw [hfv] at h
      by_cases hif : doc.attrs.any (fun a => a.name == k) = true
      · simp only [hif, if_true] at h ⊢
        cases hfa : doc.attrs.find? (fun a => a.name == k) with
        | none =>
            simp only [hfa, Except.ok.injEq] at h
            rw [← h]
            intro n hn
            simp [deltaWrites] at hn
        | some a =>
            cases he : evalExpr env a.expr with
            | error m => simp [hfa, he] at h
            | ok v =>
                simp only [hfa, he, Except.ok.injEq] at h
                rw [← h]
                intro n hn
                simpa [deltaWrites] using hn
      · simp only [hif, Bool.false_eq_true, if_false] at h ⊢
        cases hfb : doc.blocks.filter (fun b => b.key == k) with
        | nil =>
            simp only [hfb, Except.ok.injEq] at h
            rw [← h]
            intro n hn
            simp [deltaWrites] at hn
        | cons b0 brest =>
            rw [hfb] at h
            by_cases hl : (b0.label != "") = true
            · simp only [hl, if_true] at h
              generalize List.foldl _ (Except.ok []) (b0 :: brest) = res at h
              cases res with
              | error e => simp at h
              | ok items =>
                  simp only [Except.ok.injEq] at h
                  rw [← h]
                  intro n hn
                  simpa [deltaWrites] using hn
            · rw [Bool.not_eq_true] at hl
              simp only [hl, Bool.false_eq_true, if_false] at h
              cases hdec : decodeBody env b0.body with
              | mk ds entries =>
                  cases ds with
                  | nil =>
                      simp only [hdec, Except.ok.injEq] at h
                      rw [← h]
                      intro n hn
                      simpa [deltaWrites] using hn
                  | cons dd ds' => simp [hdec] at h

theorem stepKey_comm (doc : Doc) (st st1 st2 : LoadState) (k1 k2 : String)
    (h1 : stepKey doc st k1 = .ok st1) (h2 : stepKey doc st1 k2 = .ok st2)
    (hww : ∀ n ∈ stepWrites doc k1, ¬ n ∈ stepWrites doc k2)
    (hwr12 : ∀ n ∈ stepWrites doc k1, ¬ n ∈ stepReads doc k2)
    (hwr21 : ∀ n ∈ stepWrites doc k2, ¬ n ∈ stepReads doc k1) :
    ∃ st1' st2', stepKey doc st k2 = .ok st1' ∧ stepKey doc st1' k1 = .ok st2' ∧
      StateEquiv st2 st2' := by
  rw [stepKey_delta] at h1 h2
  obtain ⟨d1, hd1, hst1⟩ : ∃ d1, stepDelta doc st.env st.varValues k1 = .ok d1 ∧
      st1 = applyDelta st d1 := by
    cases hd : stepDelta doc st.env st.varValues k1 with
    | error e => rw [hd] at h1; simp [Except.map] at h1
    | ok d =>
        rw [hd] at h1
        simp only [Except.map, Except.ok.injEq] at h1
        exact ⟨d, rfl, h1.symm⟩
  obtain ⟨d2, hd2, hst2⟩ : ∃ d2, stepDelta doc st1.env st1.varValues k2 = .ok d2 ∧
      st2 = applyDelta st1 d2 := by
    cases hd : stepDelta doc st1.env st1.varValues k2 with
    | error e => rw [hd] at h2; simp [Except.map] at h2
    | ok d =>
        rw [hd] at h2
        simp only [Except.map, Except.ok.injEq] at h2
        exact ⟨d, rfl, h2.symm⟩
  have hd1w : ∀ n ∈ deltaWrites d1, n ∈ stepWrites doc k1 :=
    stepDelta_writes doc st.env st.varValues k1 d1 hd1
  have hd2w : ∀ n ∈ deltaWrites d2, n ∈ stepWrites doc k2 := by
    apply stepDelta_writes doc st1.env st1.varValues k2 d2 hd2
  -- the second step reads nothing the first one wrote, so it can run first
  have hd2' : stepDelta doc st.env st.varValues k2 = .ok d2 := by
    rw [stepDelta_local doc st.env st1.env st.varValues st1.varValues k2 ?_]
    · exact hd2
    · intro r hr
      rw [hst1]
      exact (applyDelta_env_frame st d1 r
        (fun hmem => hwr12 r (hd1w r hmem) hr)).symm
  refine ⟨applyDelta st d2, applyDelta (applyDelta st d2) d1, ?_, ?_, ?_⟩
  · rw [stepKey_delta, hd2']
    rfl
  · rw [stepKey_delta]
    have hd1' : stepDelta doc (applyDelta st d2).env (applyDelta st d2).varValues k1
        = .ok d1 := by
      rw [stepDelta_local doc (applyDelta st d2).env st.env
        (applyDelta st d2).varValues st.varValues k1 ?_]
      · exact hd1
      · intro r hr
        exact applyDelta_env_frame st d2 r (fun hmem => hwr21 r (hd2w r hmem) hr)
    rw [hd1']
    rfl
  · rw [hst2, hst1]
    exact applyDelta_comm st d1 d2
      (fun n hn1 hn2 => hww n (hd1w n hn1) (hd2w n hn2))

/-- Claim C2 (amended): resolving two adjacent keys in either order yields
identical environments and lookup-identical destination values whenever
neither step reads or writes an environment name the other step writes
(only the order of entries inside the bookkeeping lists may differ); and
in particular the `database`/`app` document decodes `app.db_url` to
`postgres://localhost:5432/mydb` under both declaration orders. -/
theorem C2_order_independence :
    (∀ (doc : Doc) (st st1 st2 : LoadState) (k1 k2 : String),
      stepKey doc st k1 = .ok st1 →
      stepKey doc st1 k2 = .ok st2 →
      (∀ n ∈ stepWrites doc k1, ¬ n ∈ stepWrites doc k2) →
      (∀ n ∈ stepWrites doc k1, ¬ n ∈ stepReads doc k2) →
      (∀ n ∈ stepWrites doc k2, ¬ n ∈ stepReads doc k1) →
      ∃ st1' st2', stepKey doc st k2 = .ok st1' ∧ stepKey doc st1' k1 = .ok st2' ∧
        StateEquiv st2 st2') ∧
    (loadModel ⟨[], [dbBlock, appBlock], []⟩ (fun _ => none)).map
        (fun st => (assocGet st.dstSingles "app", st.env "app"))
      = .ok (some (Value.obj [("db_url", Value.str "postgres://localhost:5432/mydb")]),
          some (Value.obj [("db_url", Value.str "postgres://localhost:5432/mydb")])) ∧
    (loadModel ⟨[], [appBlock, dbBlock], []⟩ (fun _ => none)).map
        (fun st => (assocGet st.dstSingles "app", st.env "app"))
      = .ok (some (Value.obj [("db_url", Value.str "postgres://localhost:5432/mydb")]),
          some (Value.obj [("db_url", Value.str "postgres://localhost:5432/mydb")])) :=
  ⟨fun doc st st1 st2 k1 k2 h1 h2 hww h12 h21 =>
    stepKey_comm doc st st1 st2 k1 k2 h1 h2 hww h12 h21, rfl, rfl⟩

/-- Witness for C2: two independent top-level attributes `x` and `y`
resolved in both orders, with every hypothesis discharged concretely. -/
theorem C2_order_independence_witness :
    StateEquiv
      ⟨envSet (envSet (fun _ => none) "x" (Value.num 1)) "y" (Value.num 2), [], [],
        [("x", Value.num 1), ("y", Value.num 2)], []⟩
      ⟨envSet (envSet (fun _ => none) "y" (Value.num 2)) "x" (Value.num 1), [], [],
        [("y", Value.num 2), ("x", Value.num 1)], []⟩ := by
  obtain ⟨st1', st2', hA, hB, hC⟩ := C2_order_independence.1
    ⟨[], [], [⟨"x", .lit (.num 1), ⟨"w.hcl", 1⟩⟩, ⟨"y", .lit (.num 2), ⟨"w.hcl", 2⟩⟩]⟩
    (initState (fun _ => none))
    ⟨envSet (fun _ => none) "x" (Value.num 1), [], [], [("x", Value.num 1)], []⟩
    ⟨envSet (envSet (fun _ => none) "x" (Value.num 1)) "y" (Value.num 2), [], [],
      [("x", Value.num 1), ("y", Value.num 2)], []⟩
    "x" "y" rfl rfl (by decide) (by decide) (by decide)
  have h1 : Except.ok st1' = Except.ok
      (⟨envSet (fun _ => none) "y" (Value.num 2), [], [], [("y", Value.num 2)], []⟩
        : LoadState) := hA.symm.trans rfl
  injection h1 with h1
  rw [h1] at hB
  have h2 : Except.ok st2' = Except.ok
      (⟨envSet (envSet (fun _ => none) "y" (Value.num 2)) "x" (Value.num 1), [], [],
        [("y", Value.num 2), ("x", Value.num 1)], []⟩ : LoadState) := hB.symm.trans rfl
  injection h2 with h2
  rw [h2] at hC
  exact hC

end HclConfig
